import Mathlib

/-!
# CDist.h: distributions, prior containers and regularisable hosts

A shallow embedding of `src/CDist.h`.

* `double` is a carrier type `R`.  The definitions only need `+` and `0`; each theorem names
  the algebraic laws it relies on (none, those of an additive monoid, or those of a commutative
  one), so the structural statements do not depend on rounding.
* `std::vector<T>` is `List T`; `push_back` appends at the end, `v[i]` outside the vector is
  undefined behaviour and is reported as `Fault.outOfBounds`.
* `assert` is taken as active; a failed assertion is `Fault.assertFailed`.
* `throw ndlexceptions::FileFormatError()` is `Fault.fileFormatError`.
* A `CDist*` is modelled by the value it points to: no operation covered here mutates a
  distribution through the container.
* Loop counters and vector sizes are natural numbers; a vector never holds `2^31` elements.
-/

namespace CDistH

/-- The ways a call can stop without returning. -/
inductive Fault where
  | assertFailed
  | fileFormatError
  | outOfBounds
  deriving DecidableEq, Repr

/-- The counted loop `for (int i = start; i < start + count; i++) body`, threading the loop
state and stopping at the first failing iteration. -/
def forRange {σ ε : Type} (body : Nat → σ → Except ε σ) : Nat → Nat → σ → Except ε σ
  | _, 0, s => Except.ok s
  | i, k + 1, s =>
    match body i s with
    | Except.ok s' => forRange body (i + 1) k s'
    | Except.error e => Except.error e

/-- The access `v[i]` of a `std::vector`; outside the vector it is undefined behaviour. -/
def vecAt {α : Type} (v : List α) (i : Nat) : Except Fault α :=
  match v[i]? with
  | some a => Except.ok a
  | none => Except.error Fault.outOfBounds

/-- The class `CDist`: the private fields and the pure virtual members `getParam`,
`getGradInput` and the scalar `logProb`, which every concrete family supplies. -/
structure CDist (R : Type) where
  nParams : Int
  type : String
  distName : String
  paramNames : List String
  getParam : Int → R
  getGradInput : R → R
  logProb : R → R

/-- The class `CParamPriors`: two parallel vectors. -/
structure CParamPriors (R : Type) where
  dists : List (CDist R)
  distIndex : List Int

/-- The pure virtual members of `CRegularisable` that the derived class (the host, with
state `σ`) supplies. -/
structure Host (σ R : Type) where
  getNumParams : σ → Int
  getParam : σ → Int → R
  setParam : σ → R → Int → σ

/-- An object of a class derived from `CRegularisable`: the state of the derived class and the
private member `distArray`. -/
structure CRegularisable (σ R : Type) where
  host : σ
  distArray : CParamPriors R

section Regularisable

variable {σ R : Type}

/-- The member `CDist::getNumParams`. -/
def CDist.getNumParams (d : CDist R) : Int := d.nParams

/-- The member `CDist::setNumParams`. -/
def CDist.setNumParams (d : CDist R) (num : Int) : CDist R := { d with nParams := num }

/-- The member `CDist::getType`. -/
def CDist.getType (d : CDist R) : String := d.type

/-- The member `CDist::setType`. -/
def CDist.setType (d : CDist R) (name : String) : CDist R := { d with type := name }

/-- The member `CDist::getName`. -/
def CDist.getName (d : CDist R) : String := d.distName

/-- The member `CDist::setName`. -/
def CDist.setName (d : CDist R) (name : String) : CDist R := { d with distName := name }

/-- The member `CDist::setParamName`. -/
def CDist.setParamName (d : CDist R) (name : String) (index : Int) : Except Fault (CDist R) :=
  if ¬ (index ≥ 0) then Except.error Fault.assertFailed
  else if ¬ (index < d.nParams) then Except.error Fault.assertFailed
  else if (d.paramNames.length : Int) = index then
    Except.ok { d with paramNames := d.paramNames ++ [name] }
  else
    Except.ok
      { d with
        paramNames :=
          (if (d.paramNames.length : Int) < index then
            d.paramNames ++ List.replicate (index.toNat + 1 - d.paramNames.length) "no name"
          else d.paramNames).set index.toNat name }

/-- The member `CDist::getParamName`. -/
def CDist.getParamName (d : CDist R) (index : Int) : Except Fault String :=
  if ¬ (index ≥ 0) then Except.error Fault.assertFailed
  else if ¬ (index < (d.paramNames.length : Int)) then Except.error Fault.assertFailed
  else vecAt d.paramNames index.toNat

/-- The member `CParamPriors::getNumDists`. -/
def CParamPriors.getNumDists (p : CParamPriors R) : Int :=
  (p.dists.length : Int)

/-- The member `CRegularisable::getNumPriors`. -/
def CRegularisable.getNumPriors (self : CRegularisable σ R) : Int :=
  self.distArray.getNumDists

/-- The member `CRegularisable::addPrior`. -/
def CRegularisable.addPrior (H : Host σ R) (self : CRegularisable σ R) (dist : CDist R)
    (index : Int) : Except Fault (CRegularisable σ R) :=
  if ¬ (index ≥ 0) then Except.error Fault.assertFailed
  else if ¬ (index < H.getNumParams self.host) then Except.error Fault.assertFailed
  else Except.ok
    { self with
      distArray :=
        { distIndex := self.distArray.distIndex ++ [index]
          dists := self.distArray.dists ++ [dist] } }

/-- The member `CRegularisable::clearPriors`. -/
def CRegularisable.clearPriors (self : CRegularisable σ R) : CRegularisable σ R :=
  { self with distArray := { distIndex := [], dists := [] } }

/-- The member `CRegularisable::getPrior`. -/
def CRegularisable.getPrior (self : CRegularisable σ R) (ind : Int) : Except Fault (CDist R) :=
  if ¬ (ind ≥ 0) then Except.error Fault.assertFailed
  else if ¬ (ind < self.getNumPriors) then Except.error Fault.assertFailed
  else vecAt self.distArray.dists ind.toNat

/-- The member `CParamPriors::getDistIndex`. -/
def CParamPriors.getDistIndex (p : CParamPriors R) (ind : Int) : Except Fault Int :=
  if ¬ (ind ≥ 0) then Except.error Fault.assertFailed
  else if ¬ (ind < p.getNumDists) then Except.error Fault.assertFailed
  else vecAt p.distIndex ind.toNat

/-- The member `CParamPriors::getDistType`. -/
def CParamPriors.getDistType (p : CParamPriors R) (ind : Int) : Except Fault String :=
  if ¬ (ind ≥ 0) then Except.error Fault.assertFailed
  else if ¬ (ind < p.getNumDists) then Except.error Fault.assertFailed
  else
    match vecAt p.dists ind.toNat with
    | Except.ok d => Except.ok d.getType
    | Except.error e => Except.error e

/-- The member `CRegularisable::getPriorType`. -/
def CRegularisable.getPriorType (self : CRegularisable σ R) (ind : Int) : Except Fault String :=
  self.distArray.getDistType ind

/-- The member `CRegularisable::getPriorIndex`. -/
def CRegularisable.getPriorIndex (self : CRegularisable σ R) (ind : Int) : Except Fault Int :=
  self.distArray.getDistIndex ind

/-- The member `CRegularisable::getPriorGradInput`. -/
def CRegularisable.getPriorGradInput (self : CRegularisable σ R) (val : R) (ind : Nat) :
    Except Fault R :=
  match vecAt self.distArray.dists ind with
  | Except.ok d => Except.ok (d.getGradInput val)
  | Except.error e => Except.error e

/-- One iteration of the loop of `CRegularisable::priorLogProb`. -/
def CRegularisable.priorLogProbBody [Add R] (H : Host σ R) (self : CRegularisable σ R)
    (i : Nat) (L : R) : Except Fault R :=
  match vecAt self.distArray.distIndex i with
  | Except.error e => Except.error e
  | Except.ok idx =>
    match vecAt self.distArray.dists i with
    | Except.error e => Except.error e
    | Except.ok d => Except.ok (L + d.logProb (H.getParam self.host idx))

/-- The member `CRegularisable::priorLogProb`. -/
def CRegularisable.priorLogProb [Add R] [Zero R] (H : Host σ R) (self : CRegularisable σ R) :
    Except Fault R :=
  forRange (self.priorLogProbBody H) 0 self.distArray.distIndex.length 0

/-- Attaching a list of priors with `addPrior`, first to last. -/
def CRegularisable.addPriors (H : Host σ R) :
    CRegularisable σ R → List (CDist R × Int) → Except Fault (CRegularisable σ R)
  | self, [] => Except.ok self
  | self, b :: bs =>
    match self.addPrior H b.1 b.2 with
    | Except.ok self' => CRegularisable.addPriors H self' bs
    | Except.error e => Except.error e

end Regularisable

/-! ## The matrix collaborator -/

/-- Modelled from the spec: the dense 2-D numeric container `CMatrix` (declared in `CMatrix.h`,
which is not among the sources), "supporting row/column-indexed get/set and shape queries
(`getRows`, `getCols`, `getVal`, `setVal`, `addVal`)".  A matrix is its shape and its entries;
entries outside the shape are never read or written by the accessors below. -/
structure CMatrix (R : Type) where
  nrows : Nat
  ncols : Nat
  vals : Nat → Nat → R

section Matrix

variable {R : Type}

/-- Modelled from the spec: the shape query `CMatrix::getRows`. -/
def CMatrix.getRows (m : CMatrix R) : Int := (m.nrows : Int)

/-- Modelled from the spec: the shape query `CMatrix::getCols`. -/
def CMatrix.getCols (m : CMatrix R) : Int := (m.ncols : Int)

/-- Modelled from the spec: `CMatrix::getVal(i, j)`, a row/column-indexed read; an index outside
the shape is a contract violation. -/
def CMatrix.getVal (m : CMatrix R) (i j : Nat) : Except Fault R :=
  if i < m.nrows ∧ j < m.ncols then Except.ok (m.vals i j) else Except.error Fault.assertFailed

/-- The entries of `m` with the one at row `i`, column `j` replaced by `v`. -/
def CMatrix.write (m : CMatrix R) (v : R) (i j : Nat) : CMatrix R :=
  { m with vals := fun a b => if a = i ∧ b = j then v else m.vals a b }

/-- Modelled from the spec: `CMatrix::setVal(val, i, j)`, a row/column-indexed write; an index
outside the shape is a contract violation. -/
def CMatrix.setVal (m : CMatrix R) (v : R) (i j : Nat) : Except Fault (CMatrix R) :=
  if i < m.nrows ∧ j < m.ncols then Except.ok (m.write v i j)
  else Except.error Fault.assertFailed

/-- Modelled from the spec: the single-index read `CMatrix::getVal(i)`, which addresses the
entries in storage order (column by column, so entry `i` of a one-row vector is its column
`i`); an index outside `0 .. rows*cols-1` is a contract violation. -/
def CMatrix.getValAt (m : CMatrix R) (i : Int) : Except Fault R :=
  if 0 ≤ i ∧ i < (m.nrows : Int) * (m.ncols : Int) then
    Except.ok (m.vals (i.toNat % m.nrows) (i.toNat / m.nrows))
  else Except.error Fault.assertFailed

/-- Modelled from the spec: the single-index write `CMatrix::setVal(val, i)`. -/
def CMatrix.setValAt (m : CMatrix R) (v : R) (i : Int) : Except Fault (CMatrix R) :=
  if 0 ≤ i ∧ i < (m.nrows : Int) * (m.ncols : Int) then
    Except.ok (m.write v (i.toNat % m.nrows) (i.toNat / m.nrows))
  else Except.error Fault.assertFailed

/-- Modelled from the spec: the single-index accumulation `CMatrix::addVal(val, i)`, which adds
`val` to entry `i`. -/
def CMatrix.addValAt [Add R] (m : CMatrix R) (v : R) (i : Int) : Except Fault (CMatrix R) :=
  if 0 ≤ i ∧ i < (m.nrows : Int) * (m.ncols : Int) then
    Except.ok (m.write (m.vals (i.toNat % m.nrows) (i.toNat / m.nrows) + v)
      (i.toNat % m.nrows) (i.toNat / m.nrows))
  else Except.error Fault.assertFailed

/-- A fault raised while the object being modified is in state `s`. -/
def atState {σ α : Type} (s : σ) (r : Except Fault α) : Except (Fault × σ) α :=
  match r with
  | Except.ok a => Except.ok a
  | Except.error e => Except.error (e, s)

/-- The entries of `x` in row-major order. -/
def CMatrix.entries (x : CMatrix R) : List R :=
  (List.range x.nrows).flatMap (fun i => (List.range x.ncols).map (fun j => x.vals i j))

/-- The inner loop of `CDist::logProb(const CMatrix&)`, over the columns of row `i`. -/
def CDist.logProbRow [Add R] (d : CDist R) (x : CMatrix R) (i : Nat) (ll : R) : Except Fault R :=
  forRange
    (fun j ll =>
      match x.getVal i j with
      | Except.ok v => Except.ok (ll + d.logProb v)
      | Except.error e => Except.error e)
    0 x.ncols ll

/-- The member `CDist::logProb(const CMatrix&)`. -/
def CDist.logProbMatrix [Add R] [Zero R] (d : CDist R) (x : CMatrix R) : Except Fault R :=
  forRange (d.logProbRow x) 0 x.nrows 0

/-- The inner loop of `CDist::getGradInputs`, over the columns of row `i`. -/
def CDist.getGradInputsRow (d : CDist R) (x : CMatrix R) (i : Nat) (g : CMatrix R) :
    Except (Fault × CMatrix R) (CMatrix R) :=
  forRange
    (fun j g =>
      match x.getVal i j with
      | Except.ok v => atState g (g.setVal (d.getGradInput v) i j)
      | Except.error e => Except.error (e, g))
    0 g.ncols g

/-- The member `CDist::getGradInputs`.  The result is the final content of `g`; a fault carries
the content `g` had when it was raised. -/
def CDist.getGradInputs (d : CDist R) (g x : CMatrix R) :
    Except (Fault × CMatrix R) (CMatrix R) :=
  if ¬ (g.getRows = x.getRows) then Except.error (Fault.assertFailed, g)
  else if ¬ (g.getCols = x.getCols) then Except.error (Fault.assertFailed, g)
  else forRange (d.getGradInputsRow x) 0 g.nrows g

end Matrix

section RegularisableMatrix

variable {σ R : Type}

/-- The member `CRegularisable::getParams`.  The result is the final content of `params`. -/
def CRegularisable.getParams (H : Host σ R) (self : CRegularisable σ R) (params : CMatrix R) :
    Except (Fault × CMatrix R) (CMatrix R) :=
  if ¬ (params.getRows = 1) then Except.error (Fault.assertFailed, params)
  else if ¬ (params.getCols = H.getNumParams self.host) then
    Except.error (Fault.assertFailed, params)
  else
    forRange (fun i p => atState p (p.setValAt (H.getParam self.host (i : Int)) (i : Int)))
      0 params.ncols params

/-- The member `CRegularisable::setParams`.  The result is the object after the call. -/
def CRegularisable.setParams (H : Host σ R) (self : CRegularisable σ R) (params : CMatrix R) :
    Except (Fault × CRegularisable σ R) (CRegularisable σ R) :=
  if ¬ (params.getRows = 1) then Except.error (Fault.assertFailed, self)
  else if ¬ (params.getCols = H.getNumParams self.host) then
    Except.error (Fault.assertFailed, self)
  else
    forRange
      (fun i s =>
        match params.getValAt (i : Int) with
        | Except.ok v => Except.ok { s with host := H.setParam s.host v (i : Int) }
        | Except.error e => Except.error (e, s))
      0 params.ncols self

/-- One iteration of the loop of `CRegularisable::addPriorGrad`. -/
def CRegularisable.addPriorGradBody [Add R] (H : Host σ R) (self : CRegularisable σ R)
    (i : Nat) (g : CMatrix R) : Except (Fault × CMatrix R) (CMatrix R) :=
  match vecAt self.distArray.distIndex i with
  | Except.error e => Except.error (e, g)
  | Except.ok idx =>
    match self.getPriorGradInput (H.getParam self.host idx) i with
    | Except.error e => Except.error (e, g)
    | Except.ok grad => atState g (g.addValAt grad idx)

/-- The member `CRegularisable::addPriorGrad`.  The result is the final content of `g`. -/
def CRegularisable.addPriorGrad [Add R] (H : Host σ R) (self : CRegularisable σ R)
    (g : CMatrix R) : Except (Fault × CMatrix R) (CMatrix R) :=
  if ¬ (g.getRows = 1) then Except.error (Fault.assertFailed, g)
  else if ¬ (g.getCols = H.getNumParams self.host) then Except.error (Fault.assertFailed, g)
  else forRange (self.addPriorGradBody H) 0 self.distArray.distIndex.length g

/-- The priors attached to `self` are exactly `bs`, in insertion order. -/
def CRegularisable.priorsAre (self : CRegularisable σ R) (bs : List (CDist R × Int)) : Prop :=
  self.distArray.dists = bs.map Prod.fst ∧ self.distArray.distIndex = bs.map Prod.snd

/-- A host whose parameters are a table of values: `getParam` reads a slot, `setParam` writes it,
and there are `n` of them. -/
def slotHost (R : Type) (n : Int) : Host (Int → R) R where
  getNumParams := fun _ => n
  getParam := fun s i => s i
  setParam := fun s v i => fun j => if j = i then v else s j

/-- A distribution over the integers used to exercise the operations: its log-density is
`-(p * x * x)` and its gradient `-(p * x)`, for one parameter `p`. -/
def quadDist (p : Int) : CDist Int where
  nParams := 1
  type := "quad"
  distName := ""
  paramNames := []
  getParam := fun _ => p
  getGradInput := fun x => -(p * x)
  logProb := fun x => -(p * x * x)

end RegularisableMatrix

section GradStep

variable {σ R : Type}

/-- The effect of one iteration of `addPriorGrad` on a one-row vector, for the binding `b`:
slot `b.2` receives its old value plus `b.1.getGradInput (getParam b.2)`. -/
def CRegularisable.gradStep [Add R] (H : Host σ R) (self : CRegularisable σ R) (g : CMatrix R)
    (b : CDist R × Int) : CMatrix R :=
  g.write (g.vals 0 b.2.toNat + b.1.getGradInput (H.getParam self.host b.2)) 0 b.2.toNat

end GradStep


section Demo

/-- A three-parameter host object with parameter values `1, 2, 3` and three priors, two of them
on parameter `2`. -/
def demoObject : CRegularisable (Int → Int) Int where
  host := fun i => i + 1
  distArray := { dists := [quadDist 1, quadDist 2, quadDist 3], distIndex := [2, 0, 2] }

/-- The object `demoObject` after reading the blocks of `(quadDist 1, 1)` and
`(quadDist 2, 0)`. -/
def demoObjectRead : CRegularisable (Int → Int) Int where
  host := fun i => i + 1
  distArray :=
    { dists := [quadDist 1, quadDist 2, quadDist 3, quadDist 1, quadDist 2]
      distIndex := [2, 0, 2, 1, 0] }

/-- A three-parameter host object with every parameter `0` and no priors. -/
def emptyObject : CRegularisable (Int → Int) Int where
  host := fun _ => 0
  distArray := { dists := [], distIndex := [] }

/-- A one-row vector with three columns, every entry `10`. -/
def demoVector : CMatrix Int where
  nrows := 1
  ncols := 3
  vals := fun _ _ => 10

/-- The all-zero one-row vector with `n` columns. -/
def zeroVector (R : Type) [Zero R] (n : Nat) : CMatrix R where
  nrows := 1
  ncols := n
  vals := fun _ _ => 0

end Demo


section HostLaws

variable {σ R : Type}

/-- The host's `getParam`/`setParam` address `n` independent parameter slots: writing slot `i`
makes it read back the written value and leaves what every other slot reads unchanged. -/
structure Host.Slots (H : Host σ R) (n : Int) : Prop where
  get_set_same : ∀ (s : σ) (v : R) (i : Int), 0 ≤ i → i < n →
    H.getParam (H.setParam s v i) i = v
  get_set_other : ∀ (s : σ) (v : R) (i j : Int), 0 ≤ i → i < n → 0 ≤ j → j < n → j ≠ i →
    H.getParam (H.setParam s v i) j = H.getParam s j

end HostLaws


/-! ## Streams -/

/-- The state of a `std::istream` that the code depends on: the characters not yet extracted
and the `eofbit` and `failbit` flags. -/
structure IStream where
  data : List Char
  eofbit : Bool
  failbit : Bool

/-- The member `good()` of a stream: no flag is set. -/
def IStream.good (s : IStream) : Bool := !s.eofbit && !s.failbit

/-- A stream over the text `t` on which nothing has been read yet. -/
def IStream.ofText (t : List Char) : IStream := { data := t, eofbit := false, failbit := false }

/-- The characters up to the first newline, and what follows that newline when there is one. -/
def splitLine : List Char → List Char × Option (List Char)
  | [] => ([], none)
  | c :: cs => if c = '\n' then ([], some cs) else ((c :: (splitLine cs).1), (splitLine cs).2)

/-- The library call `std::getline(in, line)`.  On a stream that is not `good()` it sets `failbit`
and leaves `line` as it was.  Otherwise it stores the characters up to the next newline in `line`
and extracts that newline; reaching the end of the input first sets `eofbit`, and also `failbit`
when no character was extracted. -/
def getline (s : IStream) (line : List Char) : IStream × List Char :=
  if s.good then
    match splitLine s.data with
    | (l, some rest) => ({ s with data := rest }, l)
    | (l, none) => ({ data := [], eofbit := true, failbit := l.isEmpty }, l)
  else ({ s with failbit := true }, line)

/-- The tokens of `str`, the maximal runs of characters that are not in `delims`; `cur` is the
token being collected. -/
def splitTokens (delims : List Char) : List Char → List Char → List (List Char)
  | [], cur => if cur = [] then [] else [cur]
  | c :: cs, cur =>
    if c ∈ delims then
      if cur = [] then splitTokens delims cs [] else cur :: splitTokens delims cs []
    else splitTokens delims cs (cur ++ [c])

/-- Modelled from the spec: `ndlstrutil::tokenise(tokens, str, delimiters)` (declared in
`ndlutil.h`, which is not among the sources), "a string-tokenizing utility splitting a line on a
delimiter": the pieces of `str` between delimiter characters are appended to `tokens`. -/
def tokenise (tokens : List (List Char)) (str delims : List Char) : List (List Char) :=
  tokens ++ splitTokens delims str []

/-- The key that opens every block of a prior stream. -/
def priorIndexKey : List Char := "priorIndex".toList

/-- The decimal digit `d` as a character. -/
def digitChar (d : Nat) : Char := Char.ofNat (48 + d)

/-- The decimal digits of `n`, most significant first; `fuel` bounds the number of digits. -/
def natDigits : Nat → Nat → List Char
  | 0, _ => []
  | fuel + 1, n =>
    if n < 10 then [digitChar n] else natDigits fuel (n / 10) ++ [digitChar (n % 10)]

/-- The decimal rendering of a natural number. -/
def showNat (n : Nat) : List Char := natDigits (n + 1) n

/-- The text `out << i` writes for an `int` under the default formatting flags. -/
def showInt (i : Int) : List Char :=
  if i < 0 then '-' :: showNat i.natAbs else showNat i.toNat

/-- The library predicate `isspace` in the C locale. -/
def isSpace (c : Char) : Bool :=
  c = ' ' || c = '\t' || c = '\n' || c = '\r' || c = Char.ofNat 11 || c = Char.ofNat 12

/-- The value of the leading decimal digits of a text, continuing from `acc`. -/
def digitsValue : List Char → Nat → Nat
  | [], acc => acc
  | c :: cs, acc => if c.isDigit then digitsValue cs (acc * 10 + (c.toNat - 48)) else acc

/-- The sign and digits part of `atol`, after the leading white space. -/
def atolSigned (s : List Char) : Int :=
  match s with
  | [] => 0
  | c :: cs =>
    if c = '-' then max (-(2 ^ 63)) (-(digitsValue cs 0 : Int))
    else if c = '+' then min (2 ^ 63 - 1) (digitsValue cs 0 : Int)
    else min (2 ^ 63 - 1) (digitsValue (c :: cs) 0 : Int)

/-- The library call `atol` on a 64-bit `long`: leading white space is skipped, an optional sign
and the decimal digits that follow are converted, anything else ends the number (no digits give
`0`), and a value out of range is clamped as `strtol` does. -/
def atol (s : List Char) : Int := atolSigned (s.dropWhile isSpace)

/-- The conversion of a `long` to the 32-bit `int` parameter of `addPrior`. -/
def longToInt (x : Int) : Int := (x + 2 ^ 31) % 2 ^ 32 - 2 ^ 31

section StreamOps

variable {σ R : Type}

/-- Two distributions agree in family tag and parameters. -/
def CDist.sameAs (d d' : CDist R) : Prop :=
  d'.type = d.type ∧ d'.nParams = d.nParams ∧
    ∀ i : Int, 0 ≤ i → i < d.nParams → d'.getParam i = d.getParam i

/-- The text of one block of a prior stream: the line `priorIndex=<index>` and the text of the
distribution. -/
def priorBlock (writeDist : CDist R → List Char) (b : CDist R × Int) : List Char :=
  "priorIndex=".toList ++ showInt b.2 ++ [ '\n'] ++ writeDist b.1

/-- The blocks of a list of bindings, one after the other. -/
def priorsText (writeDist : CDist R → List Char) (bs : List (CDist R × Int)) : List Char :=
  bs.flatMap (priorBlock writeDist)

/-- One iteration of the loop of `CRegularisable::writePriorsToStream`.  The free function
`writeDistToStream` is declared but not defined in `CDist.h`; `writeDist d` stands for the text it
appends to the stream for `d`. -/
def CRegularisable.writePriorsBody (writeDist : CDist R → List Char)
    (self : CRegularisable σ R) (i : Nat) (out : List Char) :
    Except (Fault × List Char) (List Char) :=
  match vecAt self.distArray.distIndex i with
  | Except.error e => Except.error (e, out)
  | Except.ok idx =>
    match vecAt self.distArray.dists i with
    | Except.error e => Except.error (e, out ++ "priorIndex=".toList ++ showInt idx ++ [ '\n'])
    | Except.ok d => Except.ok (out ++ "priorIndex=".toList ++ showInt idx ++ [ '\n'] ++ writeDist d)

/-- The member `CRegularisable::writePriorsToStream`; `out` is the text already on the stream and
the result is the text on it afterwards. -/
def CRegularisable.writePriorsToStream (writeDist : CDist R → List Char)
    (self : CRegularisable σ R) (out : List Char) : Except (Fault × List Char) (List Char) :=
  forRange (self.writePriorsBody writeDist) 0 self.distArray.distIndex.length out

/-- The variables of `CRegularisable::readPriorsFromStream` that live across iterations: the
object, the stream and the locals `line` and `tokens`. -/
structure ReadState (σ R : Type) where
  self : CRegularisable σ R
  input : IStream
  line : List Char
  tokens : List (List Char)

/-- One iteration of the loop of `CRegularisable::readPriorsFromStream`.  `tok` is
`ndlstrutil::tokenise` and `readDist` is the free function `readDistFromStream`, which returns the
distribution read and the stream after it, or raises.  A fault carries the object as it is when
the fault is raised. -/
def CRegularisable.readPriorsBody (H : Host σ R)
    (tok : List (List Char) → List Char → List Char → List (List Char))
    (readDist : IStream → Except Fault (CDist R × IStream)) (st : ReadState σ R) :
    Except (Fault × CRegularisable σ R) (ReadState σ R) :=
  let r := getline st.input st.line
  let tokens := tok st.tokens r.2 [ '=']
  if tokens.length > 2 then Except.error (Fault.fileFormatError, st.self)
  else
    match vecAt tokens 0 with
    | Except.error e => Except.error (e, st.self)
    | Except.ok t0 =>
      if t0 ≠ priorIndexKey then Except.error (Fault.fileFormatError, st.self)
      else
        match readDist r.1 with
        | Except.error e => Except.error (e, st.self)
        | Except.ok (prior, input') =>
          match vecAt tokens 1 with
          | Except.error e => Except.error (e, st.self)
          | Except.ok t1 =>
            match st.self.addPrior H prior (longToInt (atol t1)) with
            | Except.error e => Except.error (e, st.self)
            | Except.ok self' =>
              Except.ok { self := self', input := input', line := r.2, tokens := [] }

/-- The member `CRegularisable::readPriorsFromStream`.  The result is the object and the stream
after the call. -/
def CRegularisable.readPriorsFromStream (H : Host σ R)
    (tok : List (List Char) → List Char → List Char → List (List Char))
    (readDist : IStream → Except Fault (CDist R × IStream)) (self : CRegularisable σ R)
    (input : IStream) (numPriors : Int) :
    Except (Fault × CRegularisable σ R) (CRegularisable σ R × IStream) :=
  match forRange (fun _ st => CRegularisable.readPriorsBody H tok readDist st) 0 numPriors.toNat
      { self := self, input := input, line := [], tokens := [] } with
  | Except.ok st => Except.ok (st.self, st.input)
  | Except.error e => Except.error e

end StreamOps

/-- The text a one-family codec writes for a distribution: the tag line and one line with the
parameter. -/
def quadWrite (d : CDist Int) : List Char :=
  d.type.toList ++ [ '\n'] ++ showInt (d.getParam 0) ++ [ '\n']

/-- The reader of the one-family codec: a tag line, which must be `quad`, and a parameter line;
any other tag is a file-format error. -/
def quadRead (s : IStream) : Except Fault (CDist Int × IStream) :=
  if (getline s []).2 = "quad".toList then
    Except.ok (quadDist (atol (getline (getline s []).1 []).2), (getline (getline s []).1 []).1)
  else Except.error Fault.fileFormatError


section Reach

variable {σ R : Type}

/-- The objects a host with the fixed parameter count `N` can become, starting with no priors:
by a successful `addPrior`, by `clearPriors`, by a successful `readPriorsFromStream`, and also by
a `readPriorsFromStream` that raised a file-format error which the caller caught, or by the
derived class changing its own state while keeping its parameter count. -/
inductive Reachable (H : Host σ R)
    (tok : List (List Char) → List Char → List Char → List (List Char))
    (readDist : IStream → Except Fault (CDist R × IStream)) (N : Int) :
    CRegularisable σ R → Prop where
  | fresh (h : σ) (hN : H.getNumParams h = N) :
    Reachable H tok readDist N { host := h, distArray := { dists := [], distIndex := [] } }
  | addPrior (s s' : CRegularisable σ R) (d : CDist R) (i : Int)
    (hs : Reachable H tok readDist N s) (hadd : s.addPrior H d i = Except.ok s') :
    Reachable H tok readDist N s'
  | clearPriors (s : CRegularisable σ R) (hs : Reachable H tok readDist N s) :
    Reachable H tok readDist N s.clearPriors
  | readPriors (s s' : CRegularisable σ R) (input input' : IStream) (n : Int)
    (hs : Reachable H tok readDist N s)
    (hread : s.readPriorsFromStream H tok readDist input n = Except.ok (s', input')) :
    Reachable H tok readDist N s'
  | readFailed (s s' : CRegularisable σ R) (input : IStream) (n : Int)
    (hs : Reachable H tok readDist N s)
    (hread : s.readPriorsFromStream H tok readDist input n =
      Except.error (Fault.fileFormatError, s')) :
    Reachable H tok readDist N s'
  | hostStep (s : CRegularisable σ R) (h : σ) (hs : Reachable H tok readDist N s)
    (hN : H.getNumParams h = N) :
    Reachable H tok readDist N { s with host := h }

end Reach


section ParamNames

variable {R : Type}

/-- A sequence of `setParamName` calls on one distribution, first to last. -/
def CDist.setParamNames : CDist R → List (String × Int) → Except Fault (CDist R)
  | d, [] => Except.ok d
  | d, c :: cs =>
    match d.setParamName c.1 c.2 with
    | Except.ok d' => CDist.setParamNames d' cs
    | Except.error e => Except.error e

end ParamNames


/-! ## Loops -/

section Loops

variable {σ ε α : Type}

theorem forRange_foldl_inv (body : Nat → σ → Except ε σ) (f : σ → α → σ) (Inv : σ → Prop)
    (xs : List α) :
    ∀ (i0 : Nat) (s : σ), Inv s →
      (∀ (k : Nat) (hk : k < xs.length) (t : σ), Inv t →
        body (i0 + k) t = Except.ok (f t (xs.get ⟨k, hk⟩)) ∧ Inv (f t (xs.get ⟨k, hk⟩))) →
      forRange body i0 xs.length s = Except.ok (xs.foldl f s) ∧ Inv (xs.foldl f s) := by
  induction xs with
  | nil => intro i0 s hs _; exact ⟨rfl, hs⟩
  | cons x xs ih =>
    intro i0 s hs h
    have h0 := h 0 (by simp) s hs
    simp only [List.length_cons, forRange, List.foldl_cons]
    rw [Nat.add_zero] at h0
    rw [h0.1]
    apply ih (i0 + 1) _ h0.2
    intro k hk t ht
    have := h (k + 1) (by simp; omega) t ht
    rw [show i0 + 1 + k = i0 + (k + 1) by omega]
    simpa using this

theorem forRange_foldl (body : Nat → σ → Except ε σ) (f : σ → α → σ) (xs : List α) (i0 : Nat)
    (s : σ)
    (h : ∀ (k : Nat) (hk : k < xs.length) (t : σ),
      body (i0 + k) t = Except.ok (f t (xs.get ⟨k, hk⟩))) :
    forRange body i0 xs.length s = Except.ok (xs.foldl f s) :=
  (forRange_foldl_inv body f (fun _ => True) xs i0 s trivial
    (fun k hk t _ => ⟨h k hk t, trivial⟩)).1

end Loops

/-! ## Vectors and attached priors -/

section Priors

variable {σ R : Type}

theorem vecAt_get {α : Type} (v : List α) (k : Nat) (hk : k < v.length) :
    vecAt v k = Except.ok (v.get ⟨k, hk⟩) := by
  simp [vecAt, List.getElem?_eq_getElem hk]

theorem vecAt_map_get {α β : Type} (f : α → β) (bs : List α) (k : Nat) (hk : k < bs.length) :
    vecAt (bs.map f) k = Except.ok (f (bs.get ⟨k, hk⟩)) := by
  simp [vecAt, List.getElem?_eq_getElem hk]

theorem priorsAre_addPrior (H : Host σ R) (self self' : CRegularisable σ R)
    (bs : List (CDist R × Int)) (d : CDist R) (i : Int) (h : self.priorsAre bs)
    (hadd : self.addPrior H d i = Except.ok self') :
    self'.priorsAre (bs ++ [(d, i)]) ∧ self'.host = self.host ∧
      0 ≤ i ∧ i < H.getNumParams self.host := by
  unfold CRegularisable.addPrior at hadd
  split at hadd
  · cases hadd
  · split at hadd
    · cases hadd
    · cases hadd
      refine ⟨⟨?_, ?_⟩, rfl, by omega, by omega⟩
      · simp [h.1]
      · simp [h.2]

theorem priorsAre_addPriors (H : Host σ R) (bs : List (CDist R × Int)) :
    ∀ (self self' : CRegularisable σ R) (bs0 : List (CDist R × Int)), self.priorsAre bs0 →
      self.addPriors H bs = Except.ok self' →
      self'.priorsAre (bs0 ++ bs) ∧ self'.host = self.host := by
  induction bs with
  | nil =>
    intro self self' bs0 h hadd
    cases hadd
    exact ⟨by simpa using h, rfl⟩
  | cons b bs ih =>
    intro self self' bs0 h hadd
    simp only [CRegularisable.addPriors] at hadd
    cases h1 : self.addPrior H b.1 b.2 with
    | error e => rw [h1] at hadd; cases hadd
    | ok s1 =>
      rw [h1] at hadd
      have h2 := priorsAre_addPrior H self s1 bs0 b.1 b.2 h h1
      have h3 := ih s1 self' (bs0 ++ [(b.1, b.2)]) h2.1 hadd
      refine ⟨?_, by rw [h3.2, h2.2.1]⟩
      simpa using h3.1

theorem priorsAre_clearPriors (self : CRegularisable σ R) : self.clearPriors.priorsAre [] :=
  ⟨rfl, rfl⟩

theorem priorLogProbBody_get [Add R] (H : Host σ R) (self : CRegularisable σ R)
    (bs : List (CDist R × Int)) (h : self.priorsAre bs) (k : Nat) (hk : k < bs.length) (L : R) :
    self.priorLogProbBody H k L =
      Except.ok (L + (bs.get ⟨k, hk⟩).1.logProb (H.getParam self.host (bs.get ⟨k, hk⟩).2)) := by
  unfold CRegularisable.priorLogProbBody
  rw [h.1, h.2, vecAt_map_get Prod.snd bs k hk, vecAt_map_get Prod.fst bs k hk]

/-- C1: with the priors `(d_0,i_0), ..., (d_{k-1},i_{k-1})` attached in this order,
`priorLogProb` returns `0 + d_0.logProb(getParam(i_0)) + ... + d_{k-1}.logProb(getParam(i_{k-1}))`,
accumulated from the left in insertion order, each term being the distribution's own `logProb` at
the host's current value of the targeted parameter.  No law of `+` is used. -/
theorem priorLogProb_eq_sum [Add R] [Zero R] (H : Host σ R) (self : CRegularisable σ R)
    (bs : List (CDist R × Int)) (h : self.priorsAre bs) :
    self.priorLogProb H =
      Except.ok (bs.foldl (fun L b => L + b.1.logProb (H.getParam self.host b.2)) 0) := by
  unfold CRegularisable.priorLogProb
  have hlen : self.distArray.distIndex.length = bs.length := by rw [h.2]; simp
  rw [hlen]
  apply forRange_foldl
  intro k hk L
  rw [Nat.zero_add]
  exact priorLogProbBody_get H self bs h k hk L

/-- C1, exercised: a three-parameter host with parameter values `1, 2, 3` holding two priors. -/
theorem priorLogProb_eq_sum_witness :
    (CRegularisable.mk (fun i => i + 1)
        { dists := [quadDist 1, quadDist 2], distIndex := [2, 0] }).priorsAre
      [(quadDist 1, 2), (quadDist 2, 0)] ∧
    (CRegularisable.mk (fun i => i + 1)
        { dists := [quadDist 1, quadDist 2], distIndex := [2, 0] }).priorLogProb (slotHost Int 3) =
      Except.ok (([(quadDist 1, 2), (quadDist 2, 0)] : List (CDist Int × Int)).foldl
        (fun L b => L + b.1.logProb ((slotHost Int 3).getParam (fun i => i + 1) b.2)) 0) :=
  ⟨⟨rfl, rfl⟩, priorLogProb_eq_sum (slotHost Int 3) _ _ ⟨rfl, rfl⟩⟩

/-- C4: a host with no attached priors, freshly constructed or after `clearPriors`, has
`priorLogProb` equal to `0`, whatever its parameter values are. -/
theorem priorLogProb_no_priors [Add R] [Zero R] (H : Host σ R) (self : CRegularisable σ R)
    (h : σ) :
    self.clearPriors.priorLogProb H = Except.ok 0 ∧
      (CRegularisable.mk h { dists := [], distIndex := [] }).priorLogProb H = Except.ok 0 :=
  ⟨rfl, rfl⟩

end Priors


/-! ## Gradient accumulation -/

section Grad

variable {σ R : Type}

theorem addValAt_row [Add R] (g : CMatrix R) (v : R) (i : Int) (hr : g.nrows = 1)
    (h0 : 0 ≤ i) (h1 : i < (g.ncols : Int)) :
    g.addValAt v i = Except.ok (g.write (g.vals 0 i.toNat + v) 0 i.toNat) := by
  unfold CMatrix.addValAt
  rw [if_pos ⟨h0, by rw [hr]; simpa using h1⟩, hr]
  simp [Nat.mod_one]

theorem addPriorGradBody_get [Add R] (H : Host σ R) (self : CRegularisable σ R)
    (bs : List (CDist R × Int)) (h : self.priorsAre bs) (k : Nat) (hk : k < bs.length)
    (g : CMatrix R) (hr : g.nrows = 1) (h0 : 0 ≤ (bs.get ⟨k, hk⟩).2)
    (h1 : (bs.get ⟨k, hk⟩).2 < (g.ncols : Int)) :
    self.addPriorGradBody H k g = Except.ok (self.gradStep H g (bs.get ⟨k, hk⟩)) := by
  unfold CRegularisable.addPriorGradBody CRegularisable.getPriorGradInput
  rw [h.1, h.2, vecAt_map_get Prod.snd bs k hk, vecAt_map_get Prod.fst bs k hk]
  simp only []
  rw [addValAt_row g _ _ hr h0 h1]
  rfl

theorem addPriorGrad_foldl [Add R] (H : Host σ R) (self : CRegularisable σ R)
    (bs : List (CDist R × Int)) (h : self.priorsAre bs)
    (hin : ∀ b ∈ bs, 0 ≤ b.2 ∧ b.2 < H.getNumParams self.host)
    (g : CMatrix R) (hr : g.nrows = 1) (hc : (g.ncols : Int) = H.getNumParams self.host) :
    self.addPriorGrad H g = Except.ok (bs.foldl (self.gradStep H) g) := by
  unfold CRegularisable.addPriorGrad
  have hlen : self.distArray.distIndex.length = bs.length := by rw [h.2]; simp
  rw [if_neg (by simp [CMatrix.getRows, hr]), if_neg (by simp [CMatrix.getCols, hc]), hlen]
  refine (forRange_foldl_inv _ (self.gradStep H) (fun t => t.nrows = 1 ∧ t.ncols = g.ncols) bs 0 g
    ⟨hr, rfl⟩ ?_).1
  intro k hk t ht
  rw [Nat.zero_add]
  have hb := hin (bs.get ⟨k, hk⟩) (List.get_mem bs k hk)
  refine ⟨addPriorGradBody_get H self bs h k hk t ht.1 hb.1 (by rw [ht.2, hc]; exact hb.2), ?_⟩
  exact ⟨ht.1, ht.2⟩

theorem gradStep_foldl_shape [Add R] (H : Host σ R) (self : CRegularisable σ R)
    (bs : List (CDist R × Int)) :
    ∀ g : CMatrix R, (bs.foldl (self.gradStep H) g).nrows = g.nrows ∧
      (bs.foldl (self.gradStep H) g).ncols = g.ncols := by
  induction bs with
  | nil => intro g; exact ⟨rfl, rfl⟩
  | cons b bs ih => intro g; simpa [CRegularisable.gradStep, CMatrix.write] using ih _

theorem gradStep_foldl_entry [Add R] (H : Host σ R) (self : CRegularisable σ R)
    (bs : List (CDist R × Int)) (hin : ∀ b ∈ bs, 0 ≤ b.2) (j : Nat) :
    ∀ g : CMatrix R, (bs.foldl (self.gradStep H) g).vals 0 j =
      (bs.filter (fun b => b.2 = (j : Int))).foldl
        (fun a b => a + b.1.getGradInput (H.getParam self.host (j : Int))) (g.vals 0 j) := by
  induction bs with
  | nil => intro g; rfl
  | cons b bs ih =>
    intro g
    have hb := hin b (List.mem_cons_self b bs)
    rw [List.foldl_cons, ih (fun c hc => hin c (List.mem_cons_of_mem b hc))]
    by_cases hj : b.2 = (j : Int)
    · have : b.2.toNat = j := by omega
      simp [List.filter_cons, hj, CRegularisable.gradStep, CMatrix.write, this]
    · have : ¬ j = b.2.toNat := by omega
      simp [List.filter_cons, hj, CRegularisable.gradStep, CMatrix.write, this]

theorem foldl_add_eq_sum [AddMonoid R] {β : Type} (c : β → R) (l : List β) :
    ∀ a : R, l.foldl (fun a b => a + c b) a = a + (l.map c).sum := by
  induction l with
  | nil => intro a; simp
  | cons b l ih => intro a; simp [ih, add_assoc]

theorem foldl_add_assoc {α : Type} [Add α] (hassoc : ∀ a b c : α, a + b + c = a + (b + c))
    (cs : List α) : ∀ x c : α, cs.foldl (fun a b => a + b) (x + c) =
      x + cs.foldl (fun a b => a + b) c := by
  induction cs with
  | nil => intro x c; rfl
  | cons d cs ih =>
    intro x c
    rw [List.foldl_cons, List.foldl_cons, hassoc, ih]

/-- C2: for a host with `N` parameters, a `1 x N` vector `g` and attached in-range priors `bs`,
`addPriorGrad` succeeds, keeps the shape of `g`, and every entry `j` of the result is its value
before the call with the contributions `dist.getGradInput(getParam(j))` of the bindings whose
parameter index is `j` added to it one after the other, in insertion order: the contributions of
bindings sharing an index accumulate and none overwrites another.  No law of `+` is used, so this
is the value the code computes in `double`.  Where `+` is associative, the entry is its value
before the call plus the sum of those contributions. -/
theorem addPriorGrad_entry [Add R] (H : Host σ R) (self : CRegularisable σ R)
    (bs : List (CDist R × Int)) (h : self.priorsAre bs)
    (hin : ∀ b ∈ bs, 0 ≤ b.2 ∧ b.2 < H.getNumParams self.host)
    (g : CMatrix R) (hr : g.nrows = 1) (hc : (g.ncols : Int) = H.getNumParams self.host) :
    ∃ g' : CMatrix R, self.addPriorGrad H g = Except.ok g' ∧ g'.nrows = 1 ∧
      g'.ncols = g.ncols ∧
      ∀ j : Nat, j < g.ncols →
        g'.vals 0 j =
          ((bs.filter (fun b => b.2 = (j : Int))).map
            (fun b => b.1.getGradInput (H.getParam self.host (j : Int)))).foldl
            (fun a c => a + c) (g.vals 0 j) ∧
        ((∀ a b c : R, a + b + c = a + (b + c)) →
          ∀ (c : R) (cs : List R),
            (bs.filter (fun b => b.2 = (j : Int))).map
              (fun b => b.1.getGradInput (H.getParam self.host (j : Int))) = c :: cs →
            g'.vals 0 j = g.vals 0 j + cs.foldl (fun a c => a + c) c) := by
  refine ⟨_, addPriorGrad_foldl H self bs h hin g hr hc, ?_, ?_, ?_⟩
  · rw [(gradStep_foldl_shape H self bs g).1, hr]
  · exact (gradStep_foldl_shape H self bs g).2
  · intro j _
    have hentry : (bs.foldl (self.gradStep H) g).vals 0 j =
        ((bs.filter (fun b => b.2 = (j : Int))).map
          (fun b => b.1.getGradInput (H.getParam self.host (j : Int)))).foldl
          (fun a c => a + c) (g.vals 0 j) := by
      rw [gradStep_foldl_entry H self bs (fun b hb => (hin b hb).1) j g, List.foldl_map]
    refine ⟨hentry, ?_⟩
    intro hassoc c cs hcs
    rw [hentry, hcs, List.foldl_cons]
    exact foldl_add_assoc hassoc cs (g.vals 0 j) c

end Grad


section GradClaims

variable {σ R : Type}

/-- C2, exercised: three priors, two of them on parameter `2`, added into a vector of tens; the
parameters are `1, 2, 3`, so entry `2` receives `-3` and then `-9`, and entry `0` receives `-2`. -/
theorem addPriorGrad_entry_witness :
    demoObject.priorsAre [(quadDist 1, 2), (quadDist 2, 0), (quadDist 3, 2)] ∧
    ∃ g' : CMatrix Int, demoObject.addPriorGrad (slotHost Int 3) demoVector = Except.ok g' ∧
      g'.nrows = 1 ∧ g'.ncols = demoVector.ncols ∧
      g'.vals 0 0 = 8 ∧ g'.vals 0 1 = 10 ∧ g'.vals 0 2 = -2 ∧
      g'.vals 0 2 = demoVector.vals 0 2 + (-3 + -9) := by
  obtain ⟨g', h1, h2, h3, h4⟩ := addPriorGrad_entry (slotHost Int 3) demoObject
    [(quadDist 1, 2), (quadDist 2, 0), (quadDist 3, 2)] ⟨rfl, rfl⟩
    (by
      intro b hb
      simp only [List.mem_cons, List.mem_singleton, List.not_mem_nil, or_false] at hb
      rcases hb with rfl | rfl | rfl <;> exact ⟨by decide, by decide⟩)
    demoVector rfl rfl
  exact ⟨⟨rfl, rfl⟩, g', h1, h2, h3, (h4 0 (by decide)).1, (h4 1 (by decide)).1,
    (h4 2 (by decide)).1, (h4 2 (by decide)).2 Int.add_assoc (-3) [-9] rfl⟩

/-- C3: when two copies of a distribution `d` are the only priors and both target the in-range
index `i`, `addPriorGrad` on an all-zero `1 x N` vector leaves at entry `i` exactly twice what it
leaves there when a single copy of `d` is the only prior, and leaves `0` at every other entry. -/
theorem addPriorGrad_two_same [AddMonoid R] (H : Host σ R) (one two : CRegularisable σ R)
    (d : CDist R) (i : Int) (hhost : two.host = one.host)
    (h1 : one.priorsAre [(d, i)]) (h2 : two.priorsAre [(d, i), (d, i)])
    (hi0 : 0 ≤ i) (hi1 : i < H.getNumParams one.host)
    (z : CMatrix R) (hr : z.nrows = 1) (hc : (z.ncols : Int) = H.getNumParams one.host)
    (hz : ∀ j : Nat, j < z.ncols → z.vals 0 j = 0) :
    ∃ g1 g2 : CMatrix R, one.addPriorGrad H z = Except.ok g1 ∧
      two.addPriorGrad H z = Except.ok g2 ∧
      g2.vals 0 i.toNat = 2 • g1.vals 0 i.toNat ∧
      ∀ j : Nat, j < z.ncols → (j : Int) ≠ i → g2.vals 0 j = 0 := by
  have hin1 : ∀ b ∈ [(d, i)], 0 ≤ b.2 ∧ b.2 < H.getNumParams one.host := by
    intro b hb
    simp only [List.mem_singleton] at hb
    subst hb
    exact ⟨hi0, hi1⟩
  have hin2 : ∀ b ∈ [(d, i), (d, i)], 0 ≤ b.2 ∧ b.2 < H.getNumParams two.host := by
    intro b hb
    simp only [List.mem_cons, List.mem_singleton, List.not_mem_nil, or_false, or_self] at hb
    subst hb
    rw [hhost]
    exact ⟨hi0, hi1⟩
  have hlt : i.toNat < z.ncols := by omega
  have hcast : ((i.toNat : Nat) : Int) = i := by omega
  refine ⟨_, _, addPriorGrad_foldl H one _ h1 hin1 z hr hc,
    addPriorGrad_foldl H two _ h2 hin2 z hr (by rw [hhost]; exact hc), ?_, ?_⟩
  · rw [gradStep_foldl_entry H two _ (fun b hb => (hin2 b hb).1) i.toNat z,
      gradStep_foldl_entry H one _ (fun b hb => (hin1 b hb).1) i.toNat z,
      foldl_add_eq_sum, foldl_add_eq_sum, hz _ hlt, hhost]
    simp [hcast, two_nsmul]
  · intro j hj hne
    rw [gradStep_foldl_entry H two _ (fun b hb => (hin2 b hb).1) j z, hz j hj]
    have : ¬ i = (j : Int) := fun h => hne h.symm
    simp [List.filter_cons, this]

/-- C3, exercised: two copies of `quadDist 1` on parameter `1` of a three-parameter host. -/
theorem addPriorGrad_two_same_witness :
    ∃ g1 g2 : CMatrix Int,
      (CRegularisable.mk (fun i => i + 1)
        { dists := [quadDist 1], distIndex := [1] }).addPriorGrad (slotHost Int 3)
          (zeroVector Int 3) = Except.ok g1 ∧
      (CRegularisable.mk (fun i => i + 1)
        { dists := [quadDist 1, quadDist 1], distIndex := [1, 1] }).addPriorGrad (slotHost Int 3)
          (zeroVector Int 3) = Except.ok g2 ∧
      g2.vals 0 (1 : Int).toNat = 2 • g1.vals 0 (1 : Int).toNat ∧
      ∀ j : Nat, j < (zeroVector Int 3).ncols → (j : Int) ≠ 1 → g2.vals 0 j = 0 :=
  addPriorGrad_two_same (slotHost Int 3)
    (CRegularisable.mk (fun i => i + 1) { dists := [quadDist 1], distIndex := [1] })
    (CRegularisable.mk (fun i => i + 1)
      { dists := [quadDist 1, quadDist 1], distIndex := [1, 1] })
    (quadDist 1) 1 rfl ⟨rfl, rfl⟩ ⟨rfl, rfl⟩ (by decide) (by decide) (zeroVector Int 3) rfl rfl
    (fun _ _ => rfl)

end GradClaims


/-! ## Parameter marshalling -/

section Params

variable {σ R : Type}

theorem setValAt_row (p : CMatrix R) (v : R) (i : Nat) (hr : p.nrows = 1) (hi : i < p.ncols) :
    p.setValAt v (i : Int) = Except.ok (p.write v 0 i) := by
  unfold CMatrix.setValAt
  rw [if_pos ⟨by omega, by rw [hr]; simpa using hi⟩, hr]
  simp [Nat.mod_one]

theorem getValAt_row (p : CMatrix R) (i : Nat) (hr : p.nrows = 1) (hi : i < p.ncols) :
    p.getValAt (i : Int) = Except.ok (p.vals 0 i) := by
  unfold CMatrix.getValAt
  rw [if_pos ⟨by omega, by rw [hr]; simpa using hi⟩, hr]
  simp [Nat.mod_one]

theorem write_vals (m : CMatrix R) (v : R) (i j a b : Nat) :
    (m.write v i j).vals a b = if a = i ∧ b = j then v else m.vals a b := rfl

theorem getParams_foldl (H : Host σ R) (self : CRegularisable σ R) (p : CMatrix R)
    (hr : p.nrows = 1) (hc : (p.ncols : Int) = H.getNumParams self.host) :
    self.getParams H p = Except.ok
      ((List.range p.ncols).foldl (fun q k => q.write (H.getParam self.host (k : Int)) 0 k) p) := by
  unfold CRegularisable.getParams
  rw [if_neg (by simp [CMatrix.getRows, hr]), if_neg (by simp [CMatrix.getCols, hc])]
  have h := forRange_foldl_inv
    (fun i q => atState q (q.setValAt (H.getParam self.host (i : Int)) (i : Int)))
    (fun q k => q.write (H.getParam self.host (k : Int)) 0 k)
    (fun t => t.nrows = 1 ∧ t.ncols = p.ncols) (List.range p.ncols) 0 p ⟨hr, rfl⟩ (by
      intro k hk t ht
      have hk' : k < p.ncols := by simpa using hk
      simp only [Nat.zero_add, List.get_eq_getElem, List.getElem_range]
      rw [setValAt_row t _ k ht.1 (by rw [ht.2]; exact hk')]
      exact ⟨rfl, ht.1, ht.2⟩)
  rw [List.length_range] at h
  exact h.1

theorem write_foldl_range (c : Nat → R) (n : Nat) (p : CMatrix R) :
    ((List.range n).foldl (fun q k => q.write (c k) 0 k) p).nrows = p.nrows ∧
    ((List.range n).foldl (fun q k => q.write (c k) 0 k) p).ncols = p.ncols ∧
    ∀ j : Nat, ((List.range n).foldl (fun q k => q.write (c k) 0 k) p).vals 0 j =
      if j < n then c j else p.vals 0 j := by
  induction n with
  | zero => simp
  | succ n ih =>
    rw [List.range_succ, List.foldl_append]
    simp only [List.foldl_cons, List.foldl_nil]
    refine ⟨ih.1, ih.2.1, ?_⟩
    intro j
    rw [write_vals]
    by_cases hj : j = n
    · simp [hj]
    · rw [if_neg (by simp [hj]), ih.2.2 j]
      by_cases hlt : j < n
      · rw [if_pos hlt, if_pos (by omega)]
      · rw [if_neg hlt, if_neg (by omega)]

theorem setParams_foldl (H : Host σ R) (self : CRegularisable σ R) (p : CMatrix R)
    (hr : p.nrows = 1) (hc : (p.ncols : Int) = H.getNumParams self.host) :
    self.setParams H p = Except.ok
      ((List.range p.ncols).foldl
        (fun (s : CRegularisable σ R) k =>
          { s with host := H.setParam s.host (p.vals 0 k) (k : Int) }) self) := by
  unfold CRegularisable.setParams
  rw [if_neg (by simp [CMatrix.getRows, hr]), if_neg (by simp [CMatrix.getCols, hc])]
  have h := forRange_foldl
    (fun i (s : CRegularisable σ R) =>
      match p.getValAt (i : Int) with
      | Except.ok v =>
        (Except.ok { s with host := H.setParam s.host v (i : Int) } :
          Except (Fault × CRegularisable σ R) (CRegularisable σ R))
      | Except.error e => Except.error (e, s))
    (fun (s : CRegularisable σ R) k =>
      { s with host := H.setParam s.host (p.vals 0 k) (k : Int) })
    (List.range p.ncols) 0 self (by
      intro k hk t
      have hk' : k < p.ncols := by simpa using hk
      simp only [Nat.zero_add, List.get_eq_getElem, List.getElem_range]
      rw [getValAt_row p k hr hk'])
  rw [List.length_range] at h
  exact h

theorem setParams_foldl_same (H : Host σ R) (N : Int) (hs : H.Slots N)
    (self : CRegularisable σ R) (p : CMatrix R)
    (hp : ∀ k : Nat, (k : Int) < N → p.vals 0 k = H.getParam self.host (k : Int)) (n : Nat)
    (hn : (n : Int) ≤ N) :
    ((List.range n).foldl
        (fun (s : CRegularisable σ R) k =>
          { s with host := H.setParam s.host (p.vals 0 k) (k : Int) }) self).distArray =
      self.distArray ∧
    ∀ i : Int, 0 ≤ i → i < N →
      H.getParam ((List.range n).foldl
        (fun (s : CRegularisable σ R) k =>
          { s with host := H.setParam s.host (p.vals 0 k) (k : Int) }) self).host i =
        H.getParam self.host i := by
  induction n with
  | zero => simp
  | succ n ih =>
    have ih' := ih (by omega)
    rw [List.range_succ, List.foldl_append]
    simp only [List.foldl_cons, List.foldl_nil]
    refine ⟨ih'.1, ?_⟩
    intro i hi0 hi1
    by_cases hin : i = (n : Int)
    · rw [hin, hs.get_set_same _ _ _ (by omega) (by omega), hp n (by omega)]
    · rw [hs.get_set_other _ _ _ _ (by omega) (by omega) hi0 hi1 hin]
      exact ih'.2 i hi0 hi1

/-- C5: for a host whose `getParam`/`setParam` address `N` independent slots, `getParams` into a
`1 x N` vector followed by `setParams` of that vector succeeds, leaves every `getParam(i)`,
`0 <= i < N`, equal to its value before, and leaves the attached priors unchanged. -/
theorem setParams_getParams (H : Host σ R) (self : CRegularisable σ R)
    (hs : H.Slots (H.getNumParams self.host)) (v : CMatrix R) (hr : v.nrows = 1)
    (hc : (v.ncols : Int) = H.getNumParams self.host) :
    ∃ (v' : CMatrix R) (self' : CRegularisable σ R),
      self.getParams H v = Except.ok v' ∧ self.setParams H v' = Except.ok self' ∧
      (∀ i : Int, 0 ≤ i → i < H.getNumParams self.host →
        H.getParam self'.host i = H.getParam self.host i) ∧
      self'.distArray = self.distArray := by
  have hw := write_foldl_range (fun k => H.getParam self.host (k : Int)) v.ncols v
  refine ⟨_, _, getParams_foldl H self v hr hc,
    setParams_foldl H self _ (by rw [hw.1, hr]) (by rw [hw.2.1, hc]), ?_, ?_⟩
  · rw [hw.2.1]
    refine (setParams_foldl_same H _ hs self _ ?_ v.ncols (by omega)).2
    intro k hk
    rw [hw.2.2 k, if_pos (by omega)]
  · rw [hw.2.1]
    refine (setParams_foldl_same H _ hs self _ ?_ v.ncols (by omega)).1
    intro k hk
    rw [hw.2.2 k, if_pos (by omega)]

theorem slotHost_slots (R : Type) (n : Int) : (slotHost R n).Slots n where
  get_set_same := by intro s v i _ _; simp [slotHost]
  get_set_other := by intro s v i j _ _ _ _ hne; simp [slotHost, hne]

/-- C5, exercised on the three-parameter table host with three attached priors. -/
theorem setParams_getParams_witness :
    (slotHost Int 3).Slots ((slotHost Int 3).getNumParams demoObject.host) ∧
    ∃ (v' : CMatrix Int) (self' : CRegularisable (Int → Int) Int),
      demoObject.getParams (slotHost Int 3) demoVector = Except.ok v' ∧
      demoObject.setParams (slotHost Int 3) v' = Except.ok self' ∧
      (∀ i : Int, 0 ≤ i → i < (slotHost Int 3).getNumParams demoObject.host →
        (slotHost Int 3).getParam self'.host i = (slotHost Int 3).getParam demoObject.host i) ∧
      self'.distArray = demoObject.distArray :=
  ⟨slotHost_slots Int 3,
    setParams_getParams (slotHost Int 3) demoObject (slotHost_slots Int 3) demoVector rfl rfl⟩

end Params


/-! ## Matrix reductions of a distribution -/

section MatrixOps

variable {R : Type}

theorem getVal_inside (x : CMatrix R) (i j : Nat) (hi : i < x.nrows) (hj : j < x.ncols) :
    x.getVal i j = Except.ok (x.vals i j) := by
  unfold CMatrix.getVal
  rw [if_pos ⟨hi, hj⟩]

theorem logProbRow_foldl [Add R] (d : CDist R) (x : CMatrix R) (i : Nat) (hi : i < x.nrows)
    (ll : R) :
    d.logProbRow x i ll =
      Except.ok ((List.range x.ncols).foldl (fun a j => a + d.logProb (x.vals i j)) ll) := by
  unfold CDist.logProbRow
  have h := forRange_foldl
    (fun j (a : R) =>
      match x.getVal i j with
      | Except.ok v => (Except.ok (a + d.logProb v) : Except Fault R)
      | Except.error e => Except.error e)
    (fun a j => a + d.logProb (x.vals i j)) (List.range x.ncols) 0 ll (by
      intro k hk t
      have hk' : k < x.ncols := by simpa using hk
      simp only [Nat.zero_add, List.get_eq_getElem, List.getElem_range]
      rw [getVal_inside x i k hi hk'])
  rw [List.length_range] at h
  exact h

theorem logProbMatrix_foldl [Add R] [Zero R] (d : CDist R) (x : CMatrix R) :
    d.logProbMatrix x =
      Except.ok ((List.range x.nrows).foldl
        (fun a i => (List.range x.ncols).foldl (fun a j => a + d.logProb (x.vals i j)) a) 0) := by
  unfold CDist.logProbMatrix
  have h := forRange_foldl (d.logProbRow x)
    (fun a i => (List.range x.ncols).foldl (fun a j => a + d.logProb (x.vals i j)) a)
    (List.range x.nrows) 0 0 (by
      intro k hk t
      have hk' : k < x.nrows := by simpa using hk
      simp only [Nat.zero_add, List.get_eq_getElem, List.getElem_range]
      exact logProbRow_foldl d x k hk' t)
  rw [List.length_range] at h
  exact h

theorem foldl_flatMap_map {α β γ : Type} (f : γ → β → γ) (g : α → List β) (l : List α) :
    ∀ a : γ, (l.flatMap g).foldl f a = l.foldl (fun a i => (g i).foldl f a) a := by
  induction l with
  | nil => intro a; rfl
  | cons x l ih => intro a; simp [List.flatMap_cons, List.foldl_append, ih]

/-- C9: for every distribution and every matrix `x`, of any shape, `logProb(x)` is the sum of
the scalar `logProb` over the entries of `x`, accumulated from `0` in row-major order; for a
matrix with no rows or no columns it is `0`.  No law of `+` is used. -/
theorem logProbMatrix_eq_sum [Add R] [Zero R] (d : CDist R) (x : CMatrix R) (n : Nat)
    (f : Nat → Nat → R) :
    d.logProbMatrix x = Except.ok (x.entries.foldl (fun a v => a + d.logProb v) 0) ∧
    d.logProbMatrix { nrows := 0, ncols := n, vals := f } = Except.ok 0 ∧
    d.logProbMatrix { nrows := n, ncols := 0, vals := f } = Except.ok 0 := by
  refine ⟨?_, ?_, ?_⟩
  · rw [logProbMatrix_foldl, CMatrix.entries, foldl_flatMap_map]
    simp only [List.foldl_map]
  · rfl
  · rw [logProbMatrix_foldl]
    congr 1
    induction n with
    | zero => rfl
    | succ n ih => rw [List.range_succ, List.foldl_append, ih]; rfl

theorem write_row_foldl (c : Nat → R) (i n : Nat) (p : CMatrix R) :
    ((List.range n).foldl (fun q k => q.write (c k) i k) p).nrows = p.nrows ∧
    ((List.range n).foldl (fun q k => q.write (c k) i k) p).ncols = p.ncols ∧
    ∀ a b : Nat, ((List.range n).foldl (fun q k => q.write (c k) i k) p).vals a b =
      if a = i ∧ b < n then c b else p.vals a b := by
  induction n with
  | zero => simp
  | succ n ih =>
    rw [List.range_succ, List.foldl_append]
    simp only [List.foldl_cons, List.foldl_nil]
    refine ⟨ih.1, ih.2.1, ?_⟩
    intro a b
    rw [write_vals]
    by_cases hab : a = i ∧ b = n
    · rw [if_pos hab, if_pos ⟨hab.1, by omega⟩, hab.2]
    · rw [if_neg hab, ih.2.2 a b]
      by_cases h2 : a = i ∧ b < n
      · rw [if_pos h2, if_pos ⟨h2.1, by omega⟩]
      · rw [if_neg h2, if_neg (by intro h3; apply h2; refine ⟨h3.1, ?_⟩; have := h3.2; by_contra h4; exact hab ⟨h3.1, by omega⟩)]

theorem write_rows_foldl (c : Nat → Nat → R) (m n : Nat) (p : CMatrix R) :
    ((List.range m).foldl
      (fun q i => (List.range n).foldl (fun q k => q.write (c i k) i k) q) p).nrows = p.nrows ∧
    ((List.range m).foldl
      (fun q i => (List.range n).foldl (fun q k => q.write (c i k) i k) q) p).ncols = p.ncols ∧
    ∀ a b : Nat, ((List.range m).foldl
      (fun q i => (List.range n).foldl (fun q k => q.write (c i k) i k) q) p).vals a b =
      if a < m ∧ b < n then c a b else p.vals a b := by
  induction m with
  | zero => simp
  | succ m ih =>
    rw [List.range_succ, List.foldl_append]
    simp only [List.foldl_cons, List.foldl_nil]
    have hrow := write_row_foldl (c m) m n
      ((List.range m).foldl
        (fun q i => (List.range n).foldl (fun q k => q.write (c i k) i k) q) p)
    refine ⟨by rw [hrow.1, ih.1], by rw [hrow.2.1, ih.2.1], ?_⟩
    intro a b
    rw [hrow.2.2 a b, ih.2.2 a b]
    by_cases h1 : a = m ∧ b < n
    · rw [if_pos h1, if_pos ⟨by omega, h1.2⟩, h1.1]
    · rw [if_neg h1]
      by_cases h2 : a < m ∧ b < n
      · rw [if_pos h2, if_pos ⟨by omega, h2.2⟩]
      · rw [if_neg h2, if_neg (by intro h3; by_cases h4 : a = m; exact h1 ⟨h4, h3.2⟩; exact h2 ⟨by omega, h3.2⟩)]

theorem getGradInputsRow_foldl (d : CDist R) (x : CMatrix R) (i : Nat) (g : CMatrix R)
    (hr : g.nrows = x.nrows) (hc : g.ncols = x.ncols) (hi : i < x.nrows) :
    d.getGradInputsRow x i g = Except.ok
      ((List.range x.ncols).foldl (fun q k => q.write (d.getGradInput (x.vals i k)) i k) g) := by
  unfold CDist.getGradInputsRow
  rw [hc]
  have h := forRange_foldl_inv
    (fun j (q : CMatrix R) =>
      match x.getVal i j with
      | Except.ok v => atState q (q.setVal (d.getGradInput v) i j)
      | Except.error e => Except.error (e, q))
    (fun q k => q.write (d.getGradInput (x.vals i k)) i k)
    (fun t => t.nrows = x.nrows ∧ t.ncols = x.ncols) (List.range x.ncols) 0 g ⟨hr, hc⟩ (by
      intro k hk t ht
      have hk' : k < x.ncols := by simpa using hk
      simp only [Nat.zero_add, List.get_eq_getElem, List.getElem_range]
      rw [getVal_inside x i k hi hk']
      simp only [CMatrix.setVal]
      rw [if_pos ⟨by rw [ht.1]; exact hi, by rw [ht.2]; exact hk'⟩]
      exact ⟨rfl, ht.1, ht.2⟩)
  rw [List.length_range] at h
  exact h.1

theorem getGradInputs_foldl (d : CDist R) (g x : CMatrix R) (hr : g.nrows = x.nrows)
    (hc : g.ncols = x.ncols) :
    d.getGradInputs g x = Except.ok
      ((List.range x.nrows).foldl
        (fun q i =>
          (List.range x.ncols).foldl (fun q k => q.write (d.getGradInput (x.vals i k)) i k) q)
        g) := by
  unfold CDist.getGradInputs
  rw [if_neg (by simp [CMatrix.getRows, hr]), if_neg (by simp [CMatrix.getCols, hc]), hr]
  have h := forRange_foldl_inv (d.getGradInputsRow x)
    (fun q i =>
      (List.range x.ncols).foldl (fun q k => q.write (d.getGradInput (x.vals i k)) i k) q)
    (fun t => t.nrows = x.nrows ∧ t.ncols = x.ncols) (List.range x.nrows) 0 g ⟨hr, hc⟩ (by
      intro k hk t ht
      have hk' : k < x.nrows := by simpa using hk
      simp only [Nat.zero_add, List.get_eq_getElem, List.getElem_range]
      refine ⟨getGradInputsRow_foldl d x k t ht.1 ht.2 hk', ?_⟩
      have hw := write_row_foldl (fun b => d.getGradInput (x.vals k b)) k x.ncols t
      exact ⟨by rw [hw.1, ht.1], by rw [hw.2.1, ht.2]⟩)
  rw [List.length_range] at h
  exact h.1

/-- C10: when `g` and `x` have the same numbers of rows and of columns, `getGradInputs(g, x)`
succeeds, keeps the shape of `g` and makes every entry `g[i][j]` equal to
`getGradInput(x[i][j])`, whatever `g` held before; when the row counts or the column counts
differ, the call fails on an assertion and `g` is as it was. -/
theorem getGradInputs_spec (d : CDist R) (g x : CMatrix R) :
    (g.nrows = x.nrows ∧ g.ncols = x.ncols →
      ∃ g' : CMatrix R, d.getGradInputs g x = Except.ok g' ∧ g'.nrows = g.nrows ∧
        g'.ncols = g.ncols ∧
        ∀ i j : Nat, i < g.nrows → j < g.ncols → g'.vals i j = d.getGradInput (x.vals i j)) ∧
    (¬ (g.nrows = x.nrows ∧ g.ncols = x.ncols) →
      d.getGradInputs g x = Except.error (Fault.assertFailed, g)) := by
  constructor
  · rintro ⟨hr, hc⟩
    have hw := write_rows_foldl (fun a b => d.getGradInput (x.vals a b)) x.nrows x.ncols g
    refine ⟨_, getGradInputs_foldl d g x hr hc, hw.1, hw.2.1, ?_⟩
    intro i j hi hj
    rw [hw.2.2 i j, if_pos ⟨by omega, by omega⟩]
  · intro h
    unfold CDist.getGradInputs
    by_cases hr : g.nrows = x.nrows
    · have hc : ¬ g.ncols = x.ncols := fun hc => h ⟨hr, hc⟩
      rw [if_neg (by simp [CMatrix.getRows, hr]), if_pos (by simp [CMatrix.getCols, hc])]
    · rw [if_pos (by simp [CMatrix.getRows, hr])]

/-- C10, exercised: a `1 x 3` output for a `1 x 3` input, and a `1 x 3` output for a `1 x 2`
input. -/
theorem getGradInputs_spec_witness :
    (∃ g' : CMatrix Int, (quadDist 2).getGradInputs (zeroVector Int 3) demoVector = Except.ok g' ∧
        g'.nrows = (zeroVector Int 3).nrows ∧ g'.ncols = (zeroVector Int 3).ncols ∧
        ∀ i j : Nat, i < (zeroVector Int 3).nrows → j < (zeroVector Int 3).ncols →
          g'.vals i j = (quadDist 2).getGradInput (demoVector.vals i j)) ∧
    (quadDist 2).getGradInputs demoVector (zeroVector Int 2) =
      Except.error (Fault.assertFailed, demoVector) :=
  ⟨(getGradInputs_spec (quadDist 2) (zeroVector Int 3) demoVector).1 ⟨rfl, rfl⟩,
    (getGradInputs_spec (quadDist 2) demoVector (zeroVector Int 2)).2 (by decide)⟩

end MatrixOps


/-! ## Reading priors: malformed `priorIndex` lines -/

section ReadErrors

variable {σ R : Type}

theorem readPriors_succ (H : Host σ R)
    (tok : List (List Char) → List Char → List Char → List (List Char))
    (readDist : IStream → Except Fault (CDist R × IStream)) (self : CRegularisable σ R)
    (input : IStream) (numPriors : Int) (hn : 1 ≤ numPriors) (e : Fault × CRegularisable σ R)
    (h : CRegularisable.readPriorsBody H tok readDist
      { self := self, input := input, line := [], tokens := [] } = Except.error e) :
    self.readPriorsFromStream H tok readDist input numPriors = Except.error e := by
  unfold CRegularisable.readPriorsFromStream
  obtain ⟨k, hk⟩ : ∃ k : Nat, numPriors.toNat = k + 1 := ⟨numPriors.toNat - 1, by omega⟩
  rw [hk]
  simp only [forRange, h]

/-- C6: a line in the `priorIndex` position that does not split into exactly two tokens is not
always answered with a file-format error.  When the line yields the single token `priorIndex`
(the line `priorIndex`, with no `=` and no value) and a well-formed distribution block follows,
the guard `tokens.size()>2 || tokens[0]!="priorIndex"` lets it pass, the block is read, and the
call stops at the access `tokens[1]` past the end of the vector; when the line yields no token
at all, the call stops at the access `tokens[0]` of the guard itself. -/
theorem readPriors_short_line (H : Host σ R)
    (tok : List (List Char) → List Char → List Char → List (List Char))
    (readDist : IStream → Except Fault (CDist R × IStream)) (self : CRegularisable σ R)
    (input : IStream) (numPriors : Int) (hn : 1 ≤ numPriors) :
    (tok [] (getline input []).2 [ '='] = [priorIndexKey] →
      (∃ r : CDist R × IStream, readDist (getline input []).1 = Except.ok r) →
      self.readPriorsFromStream H tok readDist input numPriors =
        Except.error (Fault.outOfBounds, self)) ∧
    (tok [] (getline input []).2 [ '='] = [] →
      self.readPriorsFromStream H tok readDist input numPriors =
        Except.error (Fault.outOfBounds, self)) := by
  constructor
  · rintro htok ⟨⟨d, s'⟩, hread⟩
    apply readPriors_succ H tok readDist self input numPriors hn
    unfold CRegularisable.readPriorsBody
    simp only [htok, hread]
    rw [if_neg (by simp)]
    simp [vecAt]
  · intro htok
    apply readPriors_succ H tok readDist self input numPriors hn
    unfold CRegularisable.readPriorsBody
    simp only [htok]
    rw [if_neg (by simp)]
    simp [vecAt]

/-- C6, exercised: the stream `priorIndex`, newline, and a block of the one-family codec; and
a stream that starts with an empty line. -/
theorem readPriors_short_line_witness :
    tokenise [] (getline (IStream.ofText "priorIndex\nquad\n1\n".toList) []).2 [ '='] =
      [priorIndexKey] ∧
    emptyObject.readPriorsFromStream (slotHost Int 3) tokenise quadRead
        (IStream.ofText "priorIndex\nquad\n1\n".toList) 1 =
      Except.error (Fault.outOfBounds, emptyObject) ∧
    tokenise [] (getline (IStream.ofText "\nquad\n1\n".toList) []).2 [ '='] = [] ∧
    emptyObject.readPriorsFromStream (slotHost Int 3) tokenise quadRead
        (IStream.ofText "\nquad\n1\n".toList) 1 =
      Except.error (Fault.outOfBounds, emptyObject) :=
  ⟨rfl,
    (readPriors_short_line (slotHost Int 3) tokenise quadRead emptyObject
      (IStream.ofText "priorIndex\nquad\n1\n".toList) 1 (by decide)).1 rfl
      ⟨(quadDist 1, IStream.ofText []), rfl⟩,
    rfl,
    (readPriors_short_line (slotHost Int 3) tokenise quadRead emptyObject
      (IStream.ofText "\nquad\n1\n".toList) 1 (by decide)).2 rfl⟩

/-- C7: for a host with no attached priors, `numPriors >= 1`, and a stream whose first line has a
first token other than `priorIndex`, `readPriorsFromStream` raises a file-format error, whatever
`readDistFromStream` would do (it is not consulted), and the host still has `getNumPriors() = 0`
when the error is raised. -/
theorem readPriors_wrong_key (H : Host σ R)
    (tok : List (List Char) → List Char → List Char → List (List Char))
    (readDist : IStream → Except Fault (CDist R × IStream)) (self : CRegularisable σ R)
    (hno : self.distArray.dists = []) (input : IStream) (numPriors : Int) (hn : 1 ≤ numPriors)
    (key : List Char) (rest : List (List Char))
    (htok : tok [] (getline input []).2 [ '='] = key :: rest) (hkey : key ≠ priorIndexKey) :
    self.readPriorsFromStream H tok readDist input numPriors =
      Except.error (Fault.fileFormatError, self) ∧
    self.getNumPriors = 0 := by
  constructor
  · apply readPriors_succ H tok readDist self input numPriors hn
    unfold CRegularisable.readPriorsBody
    simp only [htok]
    by_cases hlen : (key :: rest).length > 2
    · rw [if_pos hlen]
    · rw [if_neg hlen]
      simp only [vecAt, List.getElem?_cons_zero]
      rw [if_pos hkey]
  · simp [CRegularisable.getNumPriors, CParamPriors.getNumDists, hno]

/-- C7, exercised on the stream whose first line is `fooIndex=0`. -/
theorem readPriors_wrong_key_witness :
    tokenise [] (getline (IStream.ofText "fooIndex=0\nquad\n1\n".toList) []).2 [ '='] =
      "fooIndex".toList :: [ "0".toList] ∧
    "fooIndex".toList ≠ priorIndexKey ∧
    emptyObject.readPriorsFromStream (slotHost Int 3) tokenise quadRead
        (IStream.ofText "fooIndex=0\nquad\n1\n".toList) 1 =
      Except.error (Fault.fileFormatError, emptyObject) ∧
    emptyObject.getNumPriors = 0 :=
  ⟨rfl, by decide,
    readPriors_wrong_key (slotHost Int 3) tokenise quadRead emptyObject rfl
      (IStream.ofText "fooIndex=0\nquad\n1\n".toList) 1 (by decide) "fooIndex".toList
      [ "0".toList] rfl (by decide)⟩

end ReadErrors


/-! ## Text of numbers and lines -/

section Texts

theorem splitLine_append (l rest : List Char) (h : ∀ c ∈ l, c ≠ '\n') :
    splitLine (l ++ '\n' :: rest) = (l, some rest) := by
  induction l with
  | nil => simp [splitLine]
  | cons c l ih =>
    have hc : c ≠ '\n' := h c (List.mem_cons_self c l)
    have ih' := ih (fun d hd => h d (List.mem_cons_of_mem c hd))
    simp [splitLine, hc, ih']

theorem getline_line (s : IStream) (line l rest : List Char) (hg : s.good = true)
    (hd : s.data = l ++ '\n' :: rest) (h : ∀ c ∈ l, c ≠ '\n') :
    getline s line = (IStream.ofText rest, l) := by
  unfold getline
  rw [if_pos hg, hd, splitLine_append l rest h]
  cases s with
  | mk data eofbit failbit =>
    simp only [IStream.good, Bool.and_eq_true, Bool.not_eq_true'] at hg
    simp [IStream.ofText, hg.1, hg.2]

theorem digitChar_spec (d : Nat) (hd : d < 10) :
    (digitChar d).isDigit = true ∧ (digitChar d).toNat - 48 = d ∧ digitChar d ≠ '\n' ∧
      digitChar d ≠ '=' ∧ digitChar d ≠ '-' ∧ digitChar d ≠ '+' ∧
      isSpace (digitChar d) = false := by
  interval_cases d <;> decide

theorem natDigits_mem (fuel n : Nat) : ∀ c ∈ natDigits fuel n, ∃ d : Nat, d < 10 ∧ c = digitChar d := by
  induction fuel generalizing n with
  | zero => intro c hc; simp [natDigits] at hc
  | succ fuel ih =>
    intro c hc
    unfold natDigits at hc
    split at hc
    · simp only [List.mem_singleton] at hc
      exact ⟨n, by assumption, hc⟩
    · simp only [List.mem_append, List.mem_singleton] at hc
      rcases hc with hc | hc
      · exact ih (n / 10) c hc
      · exact ⟨n % 10, Nat.mod_lt n (by decide), hc⟩

theorem natDigits_ne_nil (fuel n : Nat) : natDigits (fuel + 1) n ≠ [] := by
  unfold natDigits
  split <;> simp

theorem digitsValue_append_digit (l : List Char) (h : ∀ c ∈ l, c.isDigit = true) (d : Nat)
    (hd : d < 10) :
    ∀ acc : Nat, digitsValue (l ++ [digitChar d]) acc = digitsValue l acc * 10 + d := by
  induction l with
  | nil =>
    intro acc
    simp [digitsValue, (digitChar_spec d hd).1, (digitChar_spec d hd).2.1]
  | cons c l ih =>
    intro acc
    have hc := h c (List.mem_cons_self c l)
    simp only [List.cons_append, digitsValue, hc, if_true]
    exact ih (fun x hx => h x (List.mem_cons_of_mem c hx)) _

theorem digitsValue_natDigits (fuel : Nat) :
    ∀ n : Nat, n < fuel → digitsValue (natDigits fuel n) 0 = n := by
  induction fuel with
  | zero => intro n hn; omega
  | succ fuel ih =>
    intro n hn
    unfold natDigits
    split
    · rename_i h10
      simp [digitsValue, (digitChar_spec n h10).1, (digitChar_spec n h10).2.1]
    · rw [digitsValue_append_digit _ _ (n % 10) (Nat.mod_lt n (by decide))]
      · rw [ih (n / 10) (by omega)]
        omega
      · intro c hc
        obtain ⟨d, hd, rfl⟩ := natDigits_mem fuel (n / 10) c hc
        exact (digitChar_spec d hd).1

theorem showNat_chars (n : Nat) (c : Char) (hc : c ∈ showNat n) :
    c ≠ '\n' ∧ c ≠ '=' := by
  obtain ⟨d, hd, rfl⟩ := natDigits_mem (n + 1) n c hc
  exact ⟨(digitChar_spec d hd).2.2.1, (digitChar_spec d hd).2.2.2.1⟩

theorem atol_showNat (n : Nat) (hn : (n : Int) < 2 ^ 63) : atol (showNat n) = (n : Int) := by
  have hv := digitsValue_natDigits (n + 1) n (by omega)
  unfold atol showNat
  cases hl : natDigits (n + 1) n with
  | nil => exact absurd hl (natDigits_ne_nil n n)
  | cons c cs =>
    have hmem : c ∈ natDigits (n + 1) n := by rw [hl]; exact List.mem_cons_self c cs
    obtain ⟨d, hd, rfl⟩ := natDigits_mem (n + 1) n c hmem
    have hs := digitChar_spec d hd
    rw [hl] at hv
    rw [List.dropWhile_cons_of_neg (by simp [hs.2.2.2.2.2.2])]
    simp only [atolSigned, if_neg hs.2.2.2.2.1, if_neg hs.2.2.2.2.2.1, hv]
    omega

theorem longToInt_small (x : Int) (h0 : 0 ≤ x) (h1 : x < 2 ^ 31) : longToInt x = x := by
  unfold longToInt
  omega

theorem showInt_nonneg (i : Int) (h : 0 ≤ i) : showInt i = showNat i.toNat := by
  unfold showInt
  rw [if_neg (by omega)]

theorem splitTokens_run (delims w : List Char) (h : ∀ c ∈ w, c ∉ delims) :
    ∀ (rest cur : List Char), splitTokens delims (w ++ rest) cur =
      splitTokens delims rest (cur ++ w) := by
  induction w with
  | nil => intro rest cur; simp
  | cons c w ih =>
    intro rest cur
    have hc := h c (List.mem_cons_self c w)
    rw [List.cons_append, splitTokens, if_neg hc,
      ih (fun x hx => h x (List.mem_cons_of_mem c hx))]
    simp

theorem priorIndexKey_chars : ∀ c ∈ priorIndexKey, c ≠ '\n' ∧ c ∉ [ '='] := by decide

theorem tokenise_priorIndex_line (n : Nat) :
    tokenise [] ("priorIndex=".toList ++ showNat n) [ '='] = [priorIndexKey, showNat n] := by
  have hkey : "priorIndex=".toList = priorIndexKey ++ '=' :: [] := by decide
  have hne : showNat n ≠ [] := natDigits_ne_nil n n
  have hk : priorIndexKey ≠ [] := by decide
  unfold tokenise
  rw [hkey, List.append_assoc, splitTokens_run _ priorIndexKey
    (fun c hc => (priorIndexKey_chars c hc).2)]
  rw [List.nil_append, List.cons_append, splitTokens, if_pos (List.mem_singleton.2 rfl),
    List.nil_append, List.nil_append, if_neg hk]
  have h2 := splitTokens_run [ '='] (showNat n)
    (fun c hc => by simpa using (showNat_chars n c hc).2) [] []
  rw [List.append_nil] at h2
  rw [h2]
  simp [splitTokens, hne]

end Texts


/-! ## Writing priors and reading them back -/

section RoundTrip

variable {σ R : Type}

theorem priorBlock_foldl (writeDist : CDist R → List Char) (bs : List (CDist R × Int)) :
    ∀ out : List Char, bs.foldl (fun o b => o ++ priorBlock writeDist b) out =
      out ++ priorsText writeDist bs := by
  induction bs with
  | nil => intro out; simp [priorsText]
  | cons b bs ih =>
    intro out
    rw [List.foldl_cons, ih]
    simp [priorsText, List.flatMap_cons, List.append_assoc]

theorem writePriorsToStream_text (writeDist : CDist R → List Char) (self : CRegularisable σ R)
    (bs : List (CDist R × Int)) (h : self.priorsAre bs) (out : List Char) :
    self.writePriorsToStream writeDist out = Except.ok (out ++ priorsText writeDist bs) := by
  unfold CRegularisable.writePriorsToStream
  have hlen : self.distArray.distIndex.length = bs.length := by rw [h.2]; simp
  rw [hlen, ← priorBlock_foldl]
  apply forRange_foldl
  intro k hk t
  unfold CRegularisable.writePriorsBody
  rw [Nat.zero_add, h.1, h.2, vecAt_map_get Prod.snd bs k hk, vecAt_map_get Prod.fst bs k hk]
  simp [priorBlock, List.append_assoc]

theorem priorIndex_line_chars (n : Nat) :
    ∀ c ∈ "priorIndex=".toList ++ showNat n, c ≠ '\n' := by
  intro c hc
  have hkey : ∀ c ∈ "priorIndex=".toList, c ≠ '\n' := by decide
  rcases List.mem_append.1 hc with h | h
  · exact hkey c h
  · exact (showNat_chars n c h).1

theorem readPriorsBody_block (H : Host σ R)
    (tok : List (List Char) → List Char → List Char → List (List Char))
    (writeDist : CDist R → List Char) (readDist : IStream → Except Fault (CDist R × IStream))
    (htok : ∀ n : Nat,
      tok [] ("priorIndex=".toList ++ showNat n) [ '='] = [priorIndexKey, showNat n])
    (st : ReadState σ R) (b : CDist R × Int) (rest : List Char) (d' : CDist R) (s' : IStream)
    (hb0 : 0 ≤ b.2) (hb1 : b.2 < H.getNumParams st.self.host)
    (hN : H.getNumParams st.self.host < 2 ^ 31) (ht : st.tokens = [])
    (hg : st.input.good = true) (hd : st.input.data = priorBlock writeDist b ++ rest)
    (hr : readDist (IStream.ofText (writeDist b.1 ++ rest)) = Except.ok (d', s')) :
    CRegularisable.readPriorsBody H tok readDist st =
      Except.ok
        { self :=
            { st.self with
              distArray :=
                { distIndex := st.self.distArray.distIndex ++ [b.2]
                  dists := st.self.distArray.dists ++ [d'] } }
          input := s'
          line := "priorIndex=".toList ++ showNat b.2.toNat
          tokens := [] } := by
  have hline := getline_line st.input st.line ("priorIndex=".toList ++ showNat b.2.toNat)
    (writeDist b.1 ++ rest) hg
    (by rw [hd, priorBlock, showInt_nonneg b.2 hb0]; simp [List.append_assoc])
    (priorIndex_line_chars b.2.toNat)
  have hval : longToInt (atol (showNat b.2.toNat)) = b.2 := by
    rw [atol_showNat b.2.toNat (by omega), longToInt_small _ (by omega) (by omega)]
    omega
  unfold CRegularisable.readPriorsBody
  simp only [hline, ht, htok b.2.toNat]
  rw [if_neg (by simp)]
  simp only [vecAt, List.getElem?_cons_zero, List.getElem?_cons_succ, ne_eq, not_true_eq_false,
    if_false, hr, hval]
  unfold CRegularisable.addPrior
  rw [if_neg (by omega), if_neg (by omega)]

theorem readPriors_loop (H : Host σ R)
    (tok : List (List Char) → List Char → List Char → List (List Char))
    (writeDist : CDist R → List Char) (readDist : IStream → Except Fault (CDist R × IStream))
    (N : Int) (hN : N < 2 ^ 31)
    (htok : ∀ n : Nat,
      tok [] ("priorIndex=".toList ++ showNat n) [ '='] = [priorIndexKey, showNat n])
    (bs : List (CDist R × Int)) :
    (∀ b ∈ bs, ∀ rest : List Char, ∃ (d' : CDist R) (s' : IStream),
      readDist (IStream.ofText (writeDist b.1 ++ rest)) = Except.ok (d', s') ∧
        b.1.sameAs d' ∧ s'.data = rest ∧ (rest ≠ [] → s'.good = true)) →
    (∀ b ∈ bs, 0 ≤ b.2 ∧ b.2 < N) →
    ∀ (st : ReadState σ R) (i0 : Nat), H.getNumParams st.self.host = N → st.tokens = [] →
      st.input.data = priorsText writeDist bs →
      (priorsText writeDist bs ≠ [] → st.input.good = true) →
      ∃ (st' : ReadState σ R) (ds : List (CDist R)),
        forRange (fun _ s => CRegularisable.readPriorsBody H tok readDist s) i0 bs.length st =
          Except.ok st' ∧
        st'.self.host = st.self.host ∧
        st'.self.distArray.distIndex = st.self.distArray.distIndex ++ bs.map Prod.snd ∧
        st'.self.distArray.dists = st.self.distArray.dists ++ ds ∧
        List.Forall₂ CDist.sameAs (bs.map Prod.fst) ds := by
  induction bs with
  | nil =>
    intro _ _ st i0 _ _ _ _
    exact ⟨st, [], rfl, rfl, by simp, by simp, List.Forall₂.nil⟩
  | cons b bs ih =>
    intro hcodec hin st i0 hhost ht hd hg
    have hb := hin b (List.mem_cons_self b bs)
    have htext : priorsText writeDist (b :: bs) =
        priorBlock writeDist b ++ priorsText writeDist bs := by
      simp [priorsText, List.flatMap_cons]
    have hne : priorsText writeDist (b :: bs) ≠ [] := by
      rw [htext, priorBlock]
      simp
    obtain ⟨d', s', hr, hsame, hdata, hgood⟩ :=
      hcodec b (List.mem_cons_self b bs) (priorsText writeDist bs)
    have hbody := readPriorsBody_block H tok writeDist readDist htok st b
      (priorsText writeDist bs) d' s' hb.1 (by rw [hhost]; exact hb.2) (by rw [hhost]; exact hN)
      ht (hg hne) (by rw [hd, htext]) hr
    obtain ⟨st', ds, hloop, hh, hi, hds, hall⟩ :=
      ih (fun c hc => hcodec c (List.mem_cons_of_mem b hc))
        (fun c hc => hin c (List.mem_cons_of_mem b hc))
        { self :=
            { st.self with
              distArray :=
                { distIndex := st.self.distArray.distIndex ++ [b.2]
                  dists := st.self.distArray.dists ++ [d'] } }
          input := s'
          line := "priorIndex=".toList ++ showNat b.2.toNat
          tokens := [] }
        (i0 + 1) hhost rfl hdata hgood
    refine ⟨st', d' :: ds, ?_, hh, ?_, ?_, ?_⟩
    · simp only [List.length_cons, forRange, hbody]
      exact hloop
    · rw [hi]
      simp
    · rw [hds]
      simp
    · exact List.Forall₂.cons hsame hall

end RoundTrip


section RoundTripClaim

variable {σ R : Type}

theorem getPrior_get (self : CRegularisable σ R) (k : Nat)
    (hk : k < self.distArray.dists.length) :
    self.getPrior (k : Int) = Except.ok (self.distArray.dists.get ⟨k, hk⟩) := by
  unfold CRegularisable.getPrior CRegularisable.getNumPriors CParamPriors.getNumDists
  rw [if_neg (by omega), if_neg (by omega), Int.toNat_ofNat]
  exact vecAt_get _ k hk

theorem getPriorIndex_get (self : CRegularisable σ R) (k : Nat)
    (hk : k < self.distArray.dists.length) (hk' : k < self.distArray.distIndex.length) :
    self.getPriorIndex (k : Int) = Except.ok (self.distArray.distIndex.get ⟨k, hk'⟩) := by
  unfold CRegularisable.getPriorIndex CParamPriors.getDistIndex CParamPriors.getNumDists
  rw [if_neg (by omega), if_neg (by omega), Int.toNat_ofNat]
  exact vecAt_get _ k hk'

/-- C8: assume the distribution codec round-trips on the distributions of `A` (reading the text
written for `d`, whatever follows it, consumes exactly that text and yields a distribution equal
to `d` in tag and parameters) and that a line `priorIndex=<digits>` splits into those two tokens.
Then for `A` holding `N` priors at in-range indices and `B` with the same parameter count and no
priors, reading `N` priors into `B` from what `A.writePriorsToStream` wrote succeeds and leaves `B`
with exactly `N` bindings; at every position `k` the parameter indices of `A` and `B` are equal and
the distributions agree in tag and parameters. -/
theorem readPriors_writePriors (H : Host σ R)
    (tok : List (List Char) → List Char → List Char → List (List Char))
    (writeDist : CDist R → List Char) (readDist : IStream → Except Fault (CDist R × IStream))
    (A B : CRegularisable σ R) (bs : List (CDist R × Int))
    (hA : A.priorsAre bs) (hB : B.priorsAre [])
    (hN : H.getNumParams B.host = H.getNumParams A.host)
    (hint : H.getNumParams A.host < 2 ^ 31)
    (hin : ∀ b ∈ bs, 0 ≤ b.2 ∧ b.2 < H.getNumParams A.host)
    (htok : ∀ n : Nat,
      tok [] ("priorIndex=".toList ++ showNat n) [ '='] = [priorIndexKey, showNat n])
    (hcodec : ∀ b ∈ bs, ∀ rest : List Char, ∃ (d' : CDist R) (s' : IStream),
      readDist (IStream.ofText (writeDist b.1 ++ rest)) = Except.ok (d', s') ∧
        b.1.sameAs d' ∧ s'.data = rest ∧ (rest ≠ [] → s'.good = true)) :
    ∃ (text : List Char) (B' : CRegularisable σ R) (after : IStream),
      A.writePriorsToStream writeDist [] = Except.ok text ∧
      B.readPriorsFromStream H tok readDist (IStream.ofText text) (bs.length : Int) =
        Except.ok (B', after) ∧
      A.getNumPriors = (bs.length : Int) ∧ B'.getNumPriors = (bs.length : Int) ∧
      ∀ k : Nat, k < bs.length →
        ∃ (dA dB : CDist R) (idx : Int),
          A.getPrior (k : Int) = Except.ok dA ∧ B'.getPrior (k : Int) = Except.ok dB ∧
          dA.sameAs dB ∧
          A.getPriorIndex (k : Int) = Except.ok idx ∧
          B'.getPriorIndex (k : Int) = Except.ok idx := by
  have hw := writePriorsToStream_text writeDist A bs hA []
  rw [List.nil_append] at hw
  obtain ⟨st', ds, hloop, _, hidx, hds, hall⟩ :=
    readPriors_loop H tok writeDist readDist (H.getNumParams A.host) hint htok bs hcodec hin
      { self := B, input := IStream.ofText (priorsText writeDist bs), line := [], tokens := [] }
      0 hN rfl rfl (fun _ => rfl)
  rw [hB.1] at hds
  rw [hB.2] at hidx
  simp only [List.map_nil, List.nil_append] at hds hidx
  have hlen : (bs.map Prod.fst).length = ds.length := hall.length_eq
  rw [List.length_map] at hlen
  refine ⟨_, st'.self, st'.input, hw, ?_, ?_, ?_, ?_⟩
  · unfold CRegularisable.readPriorsFromStream
    rw [Int.toNat_ofNat, hloop]
  · simp [CRegularisable.getNumPriors, CParamPriors.getNumDists, hA.1]
  · simp [CRegularisable.getNumPriors, CParamPriors.getNumDists, hds, hlen]
  · intro k hk
    have hkA : k < A.distArray.dists.length := by rw [hA.1]; simpa using hk
    have hkA' : k < A.distArray.distIndex.length := by rw [hA.2]; simpa using hk
    have hkB : k < st'.self.distArray.dists.length := by rw [hds, ← hlen]; exact hk
    have hkB' : k < st'.self.distArray.distIndex.length := by rw [hidx]; simpa using hk
    refine ⟨_, _, _, getPrior_get A k hkA, getPrior_get st'.self k hkB, ?_,
      getPriorIndex_get A k hkA hkA', ?_⟩
    · have h1 : A.distArray.dists.get ⟨k, hkA⟩ = (bs.map Prod.fst).get ⟨k, by simpa using hk⟩ := by
        simp [hA.1]
      have h2 : st'.self.distArray.dists.get ⟨k, hkB⟩ = ds.get ⟨k, by rw [← hlen]; exact hk⟩ := by
        simp [hds]
      rw [h1, h2]
      exact (List.forall₂_iff_get.1 hall).2 k _ _
    · rw [getPriorIndex_get st'.self k hkB hkB']
      simp [hidx, hA.2]

theorem quadCodec_roundTrip (p : Int) (hp : p = 1 ∨ p = 2 ∨ p = 3) (rest : List Char) :
    ∃ (d' : CDist Int) (s' : IStream),
      quadRead (IStream.ofText (quadWrite (quadDist p) ++ rest)) = Except.ok (d', s') ∧
        (quadDist p).sameAs d' ∧ s'.data = rest ∧ (rest ≠ [] → s'.good = true) := by
  rcases hp with rfl | rfl | rfl
  · exact ⟨quadDist 1, IStream.ofText rest, rfl, ⟨rfl, rfl, fun _ _ _ => rfl⟩, rfl, fun _ => rfl⟩
  · exact ⟨quadDist 2, IStream.ofText rest, rfl, ⟨rfl, rfl, fun _ _ _ => rfl⟩, rfl, fun _ => rfl⟩
  · exact ⟨quadDist 3, IStream.ofText rest, rfl, ⟨rfl, rfl, fun _ _ _ => rfl⟩, rfl, fun _ => rfl⟩

/-- C8, exercised: the three priors of `demoObject` written with the one-family codec and read
back into `emptyObject`. -/
theorem readPriors_writePriors_witness :
    demoObject.priorsAre [(quadDist 1, 2), (quadDist 2, 0), (quadDist 3, 2)] ∧
    emptyObject.priorsAre [] ∧
    ∃ (text : List Char) (B' : CRegularisable (Int → Int) Int) (after : IStream),
      demoObject.writePriorsToStream quadWrite [] = Except.ok text ∧
      emptyObject.readPriorsFromStream (slotHost Int 3) tokenise quadRead (IStream.ofText text)
          (([(quadDist 1, 2), (quadDist 2, 0), (quadDist 3, 2)] :
            List (CDist Int × Int)).length : Int) =
        Except.ok (B', after) ∧
      demoObject.getNumPriors =
        (([(quadDist 1, 2), (quadDist 2, 0), (quadDist 3, 2)] :
          List (CDist Int × Int)).length : Int) ∧
      B'.getNumPriors =
        (([(quadDist 1, 2), (quadDist 2, 0), (quadDist 3, 2)] :
          List (CDist Int × Int)).length : Int) ∧
      ∀ k : Nat,
        k < ([(quadDist 1, 2), (quadDist 2, 0), (quadDist 3, 2)] :
          List (CDist Int × Int)).length →
        ∃ (dA dB : CDist Int) (idx : Int),
          demoObject.getPrior (k : Int) = Except.ok dA ∧ B'.getPrior (k : Int) = Except.ok dB ∧
          dA.sameAs dB ∧
          demoObject.getPriorIndex (k : Int) = Except.ok idx ∧
          B'.getPriorIndex (k : Int) = Except.ok idx :=
  ⟨⟨rfl, rfl⟩, ⟨rfl, rfl⟩,
    readPriors_writePriors (slotHost Int 3) tokenise quadWrite quadRead demoObject emptyObject
      [(quadDist 1, 2), (quadDist 2, 0), (quadDist 3, 2)] ⟨rfl, rfl⟩ ⟨rfl, rfl⟩ rfl (by decide)
      (by
        intro b hb
        simp only [List.mem_cons, List.mem_singleton, List.not_mem_nil, or_false] at hb
        rcases hb with rfl | rfl | rfl <;> exact ⟨by decide, by decide⟩)
      tokenise_priorIndex_line
      (by
        intro b hb rest
        simp only [List.mem_cons, List.mem_singleton, List.not_mem_nil, or_false] at hb
        rcases hb with rfl | rfl | rfl
        · exact quadCodec_roundTrip 1 (Or.inl rfl) rest
        · exact quadCodec_roundTrip 2 (Or.inr (Or.inl rfl)) rest
        · exact quadCodec_roundTrip 3 (Or.inr (Or.inr rfl)) rest)⟩

end RoundTripClaim


/-! ## The prior container and its forwarding members -/

section Container

variable {σ R : Type}

theorem priorsAre_length (self : CRegularisable σ R) (bs : List (CDist R × Int))
    (h : self.priorsAre bs) :
    self.distArray.dists.length = self.distArray.distIndex.length := by
  rw [h.1, h.2]
  simp

end Container


/-! ## Stream format, bulk copies and the frame of `addPriorGrad` -/

section FormatAndFrame

variable {σ R : Type}

/-- C13: with the priors `(d_0,i_0), ..., (d_{k-1},i_{k-1})` attached in this order,
`writePriorsToStream` appends to the stream, for each binding in insertion order, the line
`priorIndex=` followed by the decimal rendering of `i_j` and a newline, immediately followed by
what `writeDistToStream(d_j)` writes; with no priors attached nothing is appended.  The member is
`const`: the object is an argument only. -/
theorem writePriorsToStream_format (writeDist : CDist R → List Char)
    (self : CRegularisable σ R) (bs : List (CDist R × Int)) (h : self.priorsAre bs)
    (out : List Char) (hst : σ) :
    self.writePriorsToStream writeDist out =
      Except.ok (out ++ bs.flatMap
        (fun b => "priorIndex=".toList ++ showInt b.2 ++ [ '\n'] ++ writeDist b.1)) ∧
    (CRegularisable.mk hst { dists := [], distIndex := [] }).writePriorsToStream writeDist out =
      Except.ok out :=
  ⟨writePriorsToStream_text writeDist self bs h out, rfl⟩

/-- C13, exercised: the three priors of `demoObject` written with the one-family codec. -/
theorem writePriorsToStream_format_witness :
    demoObject.priorsAre [(quadDist 1, 2), (quadDist 2, 0), (quadDist 3, 2)] ∧
    demoObject.writePriorsToStream quadWrite [] =
      Except.ok
        "priorIndex=2\nquad\n1\npriorIndex=0\nquad\n2\npriorIndex=2\nquad\n3\n".toList :=
  ⟨⟨rfl, rfl⟩,
    (writePriorsToStream_format quadWrite demoObject
      [(quadDist 1, 2), (quadDist 2, 0), (quadDist 3, 2)] ⟨rfl, rfl⟩ [] (fun _ => 0)).1⟩

theorem setParams_foldl_values (H : Host σ R) (N : Int) (hs : H.Slots N)
    (self : CRegularisable σ R) (p : CMatrix R) (n : Nat) (hn : (n : Int) ≤ N) :
    ((List.range n).foldl
        (fun (s : CRegularisable σ R) k =>
          { s with host := H.setParam s.host (p.vals 0 k) (k : Int) }) self).distArray =
      self.distArray ∧
    ∀ i : Nat, i < n →
      H.getParam ((List.range n).foldl
        (fun (s : CRegularisable σ R) k =>
          { s with host := H.setParam s.host (p.vals 0 k) (k : Int) }) self).host (i : Int) =
        p.vals 0 i := by
  induction n with
  | zero => simp
  | succ n ih =>
    have ih' := ih (by omega)
    rw [List.range_succ, List.foldl_append]
    simp only [List.foldl_cons, List.foldl_nil]
    refine ⟨ih'.1, ?_⟩
    intro i hi
    by_cases hin : i = n
    · rw [hin, hs.get_set_same _ _ _ (by omega) (by omega)]
    · rw [hs.get_set_other _ _ _ _ (by omega) (by omega) (by omega) (by omega) (by omega)]
      exact ih'.2 i (by omega)

/-- C14: for a host with `N` parameters and a vector of exactly one row and `N` columns,
`getParams(out)` succeeds with `out[i] = getParam(i)` for every `0 <= i < N` (the member is
`const`), and, the parameters being `N` independent slots, `setParams(in)` succeeds, makes
`getParam(i) = in[i]` for every `0 <= i < N` and keeps the priors; for a vector with another row
count or column count both calls fail on an assertion, the vector and the object being as they
were. -/
theorem params_copy (H : Host σ R) (self : CRegularisable σ R) (v : CMatrix R) :
    (v.nrows = 1 ∧ (v.ncols : Int) = H.getNumParams self.host →
      (∃ out : CMatrix R, self.getParams H v = Except.ok out ∧ out.nrows = 1 ∧
        out.ncols = v.ncols ∧
        ∀ i : Nat, i < v.ncols → out.vals 0 i = H.getParam self.host (i : Int)) ∧
      (H.Slots (H.getNumParams self.host) →
        ∃ self' : CRegularisable σ R, self.setParams H v = Except.ok self' ∧
          self'.distArray = self.distArray ∧
          ∀ i : Nat, i < v.ncols → H.getParam self'.host (i : Int) = v.vals 0 i)) ∧
    (¬ (v.nrows = 1 ∧ (v.ncols : Int) = H.getNumParams self.host) →
      self.getParams H v = Except.error (Fault.assertFailed, v) ∧
      self.setParams H v = Except.error (Fault.assertFailed, self)) := by
  constructor
  · rintro ⟨hr, hc⟩
    have hw := write_foldl_range (fun k => H.getParam self.host (k : Int)) v.ncols v
    refine ⟨⟨_, getParams_foldl H self v hr hc, by rw [hw.1, hr], hw.2.1, ?_⟩, ?_⟩
    · intro i hi
      rw [hw.2.2 i, if_pos hi]
    · intro hs
      have hv := setParams_foldl_values H _ hs self v v.ncols (by omega)
      exact ⟨_, setParams_foldl H self v hr hc, hv.1, hv.2⟩
  · intro h
    unfold CRegularisable.getParams CRegularisable.setParams
    by_cases hr : v.nrows = 1
    · have hc : ¬ ((v.ncols : Int) = H.getNumParams self.host) := fun hc => h ⟨hr, hc⟩
      rw [if_neg (by simp [CMatrix.getRows, hr]), if_pos (by simpa [CMatrix.getCols] using hc),
        if_neg (by simp [CMatrix.getRows, hr]), if_pos (by simpa [CMatrix.getCols] using hc)]
      exact ⟨rfl, rfl⟩
    · rw [if_pos (by simp [CMatrix.getRows, hr]), if_pos (by simp [CMatrix.getRows, hr])]
      exact ⟨rfl, rfl⟩

/-- C14, exercised: a `1 x 3` vector and a `1 x 2` vector on the three-parameter table host. -/
theorem params_copy_witness :
    ((∃ out : CMatrix Int, demoObject.getParams (slotHost Int 3) demoVector = Except.ok out ∧
        out.nrows = 1 ∧ out.ncols = demoVector.ncols ∧
        ∀ i : Nat, i < demoVector.ncols →
          out.vals 0 i = (slotHost Int 3).getParam demoObject.host (i : Int)) ∧
      (slotHost Int 3).Slots ((slotHost Int 3).getNumParams demoObject.host) ∧
      ∃ self' : CRegularisable (Int → Int) Int,
        demoObject.setParams (slotHost Int 3) demoVector = Except.ok self' ∧
        self'.distArray = demoObject.distArray ∧
        ∀ i : Nat, i < demoVector.ncols →
          (slotHost Int 3).getParam self'.host (i : Int) = demoVector.vals 0 i) ∧
    (demoObject.getParams (slotHost Int 3) (zeroVector Int 2) =
        Except.error (Fault.assertFailed, zeroVector Int 2) ∧
      demoObject.setParams (slotHost Int 3) (zeroVector Int 2) =
        Except.error (Fault.assertFailed, demoObject)) :=
  ⟨⟨((params_copy (slotHost Int 3) demoObject demoVector).1 ⟨rfl, rfl⟩).1, slotHost_slots Int 3,
      ((params_copy (slotHost Int 3) demoObject demoVector).1 ⟨rfl, rfl⟩).2
        (slotHost_slots Int 3)⟩,
    (params_copy (slotHost Int 3) demoObject (zeroVector Int 2)).2 (by decide)⟩

/-- C18: for a host with in-range priors `bs` and a `1 x N` vector `g`, `addPriorGrad` keeps the
shape of `g` and leaves unchanged every entry whose index is not the parameter index of a
binding; with no priors attached it returns `g` exactly as given.  The member is `const` and
takes the object as an argument only, so the parameters and the priors are as before. -/
theorem addPriorGrad_frame [Add R] (H : Host σ R) (self : CRegularisable σ R)
    (bs : List (CDist R × Int)) (h : self.priorsAre bs)
    (hin : ∀ b ∈ bs, 0 ≤ b.2 ∧ b.2 < H.getNumParams self.host)
    (g : CMatrix R) (hr : g.nrows = 1) (hc : (g.ncols : Int) = H.getNumParams self.host) :
    (∃ g' : CMatrix R, self.addPriorGrad H g = Except.ok g' ∧ g'.nrows = g.nrows ∧
      g'.ncols = g.ncols ∧
      ∀ j : Nat, j < g.ncols → (∀ b ∈ bs, b.2 ≠ (j : Int)) → g'.vals 0 j = g.vals 0 j) ∧
    (CRegularisable.mk self.host { dists := [], distIndex := [] }).addPriorGrad H g =
      Except.ok g := by
  have hfold := addPriorGrad_foldl H self bs h hin g hr hc
  refine ⟨⟨_, hfold, (gradStep_foldl_shape H self bs g).1, (gradStep_foldl_shape H self bs g).2,
    ?_⟩, ?_⟩
  · intro j _ hj
    rw [gradStep_foldl_entry H self bs (fun b hb => (hin b hb).1) j g]
    have hnil : bs.filter (fun b => b.2 = (j : Int)) = [] := by
      rw [List.filter_eq_nil_iff]
      intro b hb
      simpa using hj b hb
    rw [hnil]
    rfl
  · exact addPriorGrad_foldl H (CRegularisable.mk self.host { dists := [], distIndex := [] }) []
      ⟨rfl, rfl⟩ (fun b hb => absurd hb (List.not_mem_nil b)) g hr hc

/-- C18, exercised: the priors of `demoObject` target the parameters `2` and `0` only. -/
theorem addPriorGrad_frame_witness :
    (∃ g' : CMatrix Int, demoObject.addPriorGrad (slotHost Int 3) demoVector = Except.ok g' ∧
      g'.nrows = demoVector.nrows ∧ g'.ncols = demoVector.ncols ∧
      ∀ j : Nat, j < demoVector.ncols →
        (∀ b ∈ [(quadDist 1, (2 : Int)), (quadDist 2, 0), (quadDist 3, 2)], b.2 ≠ (j : Int)) →
        g'.vals 0 j = demoVector.vals 0 j) ∧
    (CRegularisable.mk demoObject.host { dists := [], distIndex := [] }).addPriorGrad
        (slotHost Int 3) demoVector = Except.ok demoVector :=
  addPriorGrad_frame (slotHost Int 3) demoObject
    [(quadDist 1, 2), (quadDist 2, 0), (quadDist 3, 2)] ⟨rfl, rfl⟩
    (by
      intro b hb
      simp only [List.mem_cons, List.mem_singleton, List.not_mem_nil, or_false] at hb
      rcases hb with rfl | rfl | rfl <;> exact ⟨by decide, by decide⟩)
    demoVector rfl rfl

end FormatAndFrame


/-! ## Independence of the binding order -/

section Order

variable {σ R : Type}

theorem priorLogProb_foldl [Add R] [Zero R] (H : Host σ R) (self : CRegularisable σ R)
    (bs : List (CDist R × Int)) (h : self.priorsAre bs) :
    self.priorLogProb H =
      Except.ok (bs.foldl (fun L b => L + b.1.logProb (H.getParam self.host b.2)) 0) := by
  unfold CRegularisable.priorLogProb
  have hlen : self.distArray.distIndex.length = bs.length := by rw [h.2]; simp
  rw [hlen]
  apply forRange_foldl
  intro k hk L
  rw [Nat.zero_add]
  exact priorLogProbBody_get H self bs h k hk L

theorem gradStep_foldl_other_rows [Add R] (H : Host σ R) (self : CRegularisable σ R)
    (bs : List (CDist R × Int)) (a b : Nat) (ha : a ≠ 0) :
    ∀ g : CMatrix R, (bs.foldl (self.gradStep H) g).vals a b = g.vals a b := by
  induction bs with
  | nil => intro g; rfl
  | cons c bs ih =>
    intro g
    rw [List.foldl_cons, ih]
    simp [CRegularisable.gradStep, write_vals, ha]

theorem CMatrix.eq_of_entries (m1 m2 : CMatrix R) (hr : m1.nrows = m2.nrows)
    (hc : m1.ncols = m2.ncols) (hv : ∀ a b : Nat, m1.vals a b = m2.vals a b) : m1 = m2 := by
  cases m1
  cases m2
  simp only [CMatrix.mk.injEq] at *
  exact ⟨hr, hc, funext fun a => funext (hv a)⟩

theorem sum_map_perm_congr [AddCommMonoid R] {β : Type} (c1 c2 : β → R) (l1 l2 : List β)
    (hperm : l1.Perm l2) (hc : ∀ b ∈ l1, c1 b = c2 b) :
    (l1.map c1).sum = (l2.map c2).sum := by
  rw [List.map_congr_left hc]
  exact (hperm.map c2).sum_eq

/-- C16: over exact arithmetic (a commutative additive monoid), for two hosts with the same
parameter count and equal parameter values whose in-range binding lists are permutations of one
another, `priorLogProb` returns the same value on both, and `addPriorGrad` applied to the same
`1 x N` vector succeeds on both with the same resulting vector. -/
theorem binding_order_irrelevant [AddCommMonoid R] (H : Host σ R) (s1 s2 : CRegularisable σ R)
    (bs1 bs2 : List (CDist R × Int)) (h1 : s1.priorsAre bs1) (h2 : s2.priorsAre bs2)
    (hperm : bs1.Perm bs2) (hN : H.getNumParams s2.host = H.getNumParams s1.host)
    (hpar : ∀ i : Int, 0 ≤ i → i < H.getNumParams s1.host →
      H.getParam s1.host i = H.getParam s2.host i)
    (hin : ∀ b ∈ bs1, 0 ≤ b.2 ∧ b.2 < H.getNumParams s1.host) :
    s1.priorLogProb H = s2.priorLogProb H ∧
    ∀ g : CMatrix R, g.nrows = 1 → (g.ncols : Int) = H.getNumParams s1.host →
      ∃ g' : CMatrix R, s1.addPriorGrad H g = Except.ok g' ∧
        s2.addPriorGrad H g = Except.ok g' := by
  have hin2 : ∀ b ∈ bs2, 0 ≤ b.2 ∧ b.2 < H.getNumParams s2.host := by
    intro b hb
    rw [hN]
    exact hin b (hperm.mem_iff.2 hb)
  constructor
  · rw [priorLogProb_foldl H s1 bs1 h1, priorLogProb_foldl H s2 bs2 h2, foldl_add_eq_sum,
      foldl_add_eq_sum]
    congr 2
    exact sum_map_perm_congr _ _ bs1 bs2 hperm
      (fun b hb => by rw [hpar b.2 (hin b hb).1 (hin b hb).2])
  · intro g hr hc
    refine ⟨_, addPriorGrad_foldl H s1 bs1 h1 hin g hr hc, ?_⟩
    rw [addPriorGrad_foldl H s2 bs2 h2 hin2 g hr (by rw [hN]; exact hc)]
    congr 1
    apply CMatrix.eq_of_entries
    · rw [(gradStep_foldl_shape H s2 bs2 g).1, (gradStep_foldl_shape H s1 bs1 g).1]
    · rw [(gradStep_foldl_shape H s2 bs2 g).2, (gradStep_foldl_shape H s1 bs1 g).2]
    · intro a b
      by_cases ha : a = 0
      · subst ha
        rw [gradStep_foldl_entry H s2 bs2 (fun c hc => (hin2 c hc).1) b g,
          gradStep_foldl_entry H s1 bs1 (fun c hc => (hin c hc).1) b g, foldl_add_eq_sum,
          foldl_add_eq_sum]
        congr 1
        refine (sum_map_perm_congr _ _ _ _ (hperm.filter _) ?_).symm
        intro c hc
        have hmem := (List.mem_filter.1 hc).1
        have hidx : c.2 = (b : Int) := by simpa using (List.mem_filter.1 hc).2
        rw [← hidx, hpar c.2 (hin c hmem).1 (hin c hmem).2]
      · rw [gradStep_foldl_other_rows H s2 bs2 a b ha, gradStep_foldl_other_rows H s1 bs1 a b ha]

/-- C16, exercised: `demoObject` and an object with the same priors attached in another order. -/
theorem binding_order_irrelevant_witness :
    ([(quadDist 1, 2), (quadDist 2, 0), (quadDist 3, 2)] : List (CDist Int × Int)).Perm
      [(quadDist 3, 2), (quadDist 1, 2), (quadDist 2, 0)] ∧
    demoObject.priorLogProb (slotHost Int 3) =
      (CRegularisable.mk demoObject.host
        { dists := [quadDist 3, quadDist 1, quadDist 2], distIndex := [2, 2, 0] }).priorLogProb
        (slotHost Int 3) ∧
    ∀ g : CMatrix Int, g.nrows = 1 →
      (g.ncols : Int) = (slotHost Int 3).getNumParams demoObject.host →
      ∃ g' : CMatrix Int, demoObject.addPriorGrad (slotHost Int 3) g = Except.ok g' ∧
        (CRegularisable.mk demoObject.host
          { dists := [quadDist 3, quadDist 1, quadDist 2], distIndex := [2, 2, 0] }).addPriorGrad
          (slotHost Int 3) g = Except.ok g' :=
  ⟨(List.perm_append_comm :
      ([(quadDist 1, 2), (quadDist 2, 0)] ++ [(quadDist 3, 2)] : List (CDist Int × Int)).Perm
        ([(quadDist 3, 2)] ++ [(quadDist 1, 2), (quadDist 2, 0)])),
    binding_order_irrelevant (slotHost Int 3) demoObject
      (CRegularisable.mk demoObject.host
        { dists := [quadDist 3, quadDist 1, quadDist 2], distIndex := [2, 2, 0] })
      [(quadDist 1, 2), (quadDist 2, 0), (quadDist 3, 2)]
      [(quadDist 3, 2), (quadDist 1, 2), (quadDist 2, 0)] ⟨rfl, rfl⟩ ⟨rfl, rfl⟩
      (List.perm_append_comm :
        ([(quadDist 1, 2), (quadDist 2, 0)] ++ [(quadDist 3, 2)] : List (CDist Int × Int)).Perm
          ([(quadDist 3, 2)] ++ [(quadDist 1, 2), (quadDist 2, 0)]))
      rfl (fun _ _ _ => rfl)
      (by
        intro b hb
        simp only [List.mem_cons, List.mem_singleton, List.not_mem_nil, or_false] at hb
        rcases hb with rfl | rfl | rfl <;> exact ⟨by decide, by decide⟩)⟩

end Order


/-! ## Reading priors: what a call leaves behind -/

section ReadEffects

variable {σ R : Type}

theorem forRange_inv {τ ε : Type} (body : Nat → τ → Except ε τ) (Inv : Nat → τ → Prop)
    (InvE : Nat → ε → Prop)
    (h : ∀ (i : Nat) (s : τ), Inv i s →
      (∀ s', body i s = Except.ok s' → Inv (i + 1) s') ∧
      (∀ e, body i s = Except.error e → InvE i e)) :
    ∀ (n i : Nat) (s : τ), Inv i s →
      (∀ s', forRange body i n s = Except.ok s' → Inv (i + n) s') ∧
      (∀ e, forRange body i n s = Except.error e → ∃ k : Nat, i ≤ k ∧ k < i + n ∧ InvE k e) := by
  intro n
  induction n with
  | zero =>
    intro i s hs
    constructor
    · intro s' hs'
      cases hs'
      exact hs
    · intro e he
      cases he
  | succ n ih =>
    intro i s hs
    have hb := h i s hs
    simp only [forRange]
    cases hbody : body i s with
    | error e0 =>
      constructor
      · intro s' hs'
        cases hs'
      · intro e he
        cases he
        exact ⟨i, le_refl i, by omega, hb.2 _ hbody⟩
    | ok s1 =>
      have hnext := ih (i + 1) s1 (hb.1 s1 hbody)
      constructor
      · intro s' hs'
        have := hnext.1 s' hs'
        rwa [show i + 1 + n = i + (n + 1) by omega] at this
      · intro e he
        obtain ⟨k, hk1, hk2, hk3⟩ := hnext.2 e he
        exact ⟨k, by omega, by omega, hk3⟩

theorem readPriorsBody_error (H : Host σ R)
    (tok : List (List Char) → List Char → List Char → List (List Char))
    (readDist : IStream → Except Fault (CDist R × IStream)) (st : ReadState σ R) (e : Fault)
    (s : CRegularisable σ R)
    (h : CRegularisable.readPriorsBody H tok readDist st = Except.error (e, s)) :
    s = st.self := by
  unfold CRegularisable.readPriorsBody at h
  simp only [] at h
  split at h
  · cases h; rfl
  · split at h
    · cases h; rfl
    · split at h
      · cases h; rfl
      · split at h
        · cases h; rfl
        · split at h
          · cases h; rfl
          · split at h
            · cases h; rfl
            · cases h

theorem readPriorsBody_ok (H : Host σ R)
    (tok : List (List Char) → List Char → List Char → List (List Char))
    (readDist : IStream → Except Fault (CDist R × IStream)) (st st' : ReadState σ R)
    (h : CRegularisable.readPriorsBody H tok readDist st = Except.ok st') :
    ∃ (d : CDist R) (idx : Int), st.self.addPrior H d idx = Except.ok st'.self := by
  unfold CRegularisable.readPriorsBody at h
  simp only [] at h
  split at h
  · cases h
  · split at h
    · cases h
    · split at h
      · cases h
      · split at h
        · cases h
        · split at h
          · cases h
          · split at h
            · cases h
            · rename_i prior input' hread t1 ht1 self' hadd
              cases h
              exact ⟨_, _, hadd⟩

theorem addPrior_ok (H : Host σ R) (s s' : CRegularisable σ R) (d : CDist R) (i : Int)
    (h : s.addPrior H d i = Except.ok s') :
    s'.host = s.host ∧ s'.distArray.dists = s.distArray.dists ++ [d] ∧
      s'.distArray.distIndex = s.distArray.distIndex ++ [i] ∧
      0 ≤ i ∧ i < H.getNumParams s.host := by
  unfold CRegularisable.addPrior at h
  split at h
  · cases h
  · split at h
    · cases h
    · cases h
      exact ⟨rfl, rfl, rfl, by omega, by omega⟩

/-- The object of a read in progress holds the priors of `self` followed by `k` in-range
bindings, on the same host state. -/
theorem readPriors_grows (H : Host σ R)
    (tok : List (List Char) → List Char → List Char → List (List Char))
    (readDist : IStream → Except Fault (CDist R × IStream)) (self : CRegularisable σ R)
    (input : IStream) (n : Nat) :
    (∀ st', forRange (fun _ st => CRegularisable.readPriorsBody H tok readDist st) 0 n
        { self := self, input := input, line := [], tokens := [] } = Except.ok st' →
      st'.self.host = self.host ∧
      ∃ added : List (CDist R × Int), added.length = n ∧
        (∀ b ∈ added, 0 ≤ b.2 ∧ b.2 < H.getNumParams self.host) ∧
        st'.self.distArray.dists = self.distArray.dists ++ added.map Prod.fst ∧
        st'.self.distArray.distIndex = self.distArray.distIndex ++ added.map Prod.snd) ∧
    (∀ e s, forRange (fun _ st => CRegularisable.readPriorsBody H tok readDist st) 0 n
        { self := self, input := input, line := [], tokens := [] } = Except.error (e, s) →
      s.host = self.host ∧
      ∃ added : List (CDist R × Int), added.length < n ∧
        (∀ b ∈ added, 0 ≤ b.2 ∧ b.2 < H.getNumParams self.host) ∧
        s.distArray.dists = self.distArray.dists ++ added.map Prod.fst ∧
        s.distArray.distIndex = self.distArray.distIndex ++ added.map Prod.snd) := by
  have key := forRange_inv (fun _ st => CRegularisable.readPriorsBody H tok readDist st)
    (fun k (st : ReadState σ R) => st.self.host = self.host ∧
      ∃ added : List (CDist R × Int), added.length = k ∧
        (∀ b ∈ added, 0 ≤ b.2 ∧ b.2 < H.getNumParams self.host) ∧
        st.self.distArray.dists = self.distArray.dists ++ added.map Prod.fst ∧
        st.self.distArray.distIndex = self.distArray.distIndex ++ added.map Prod.snd)
    (fun k (e : Fault × CRegularisable σ R) => e.2.host = self.host ∧
      ∃ added : List (CDist R × Int), added.length = k ∧
        (∀ b ∈ added, 0 ≤ b.2 ∧ b.2 < H.getNumParams self.host) ∧
        e.2.distArray.dists = self.distArray.dists ++ added.map Prod.fst ∧
        e.2.distArray.distIndex = self.distArray.distIndex ++ added.map Prod.snd)
    (by
      intro i st hinv
      constructor
      · intro st' hst'
        obtain ⟨d, idx, hadd⟩ := readPriorsBody_ok H tok readDist st st' hst'
        obtain ⟨hhost, added, hlen, hrange, hds, his⟩ := hinv
        have hp := addPrior_ok H st.self st'.self d idx hadd
        refine ⟨by rw [hp.1, hhost], added ++ [(d, idx)], by simp [hlen], ?_, ?_, ?_⟩
        · intro b hb
          rcases List.mem_append.1 hb with hb | hb
          · exact hrange b hb
          · simp only [List.mem_singleton] at hb
            subst hb
            rw [← hhost]
            exact ⟨hp.2.2.2.1, hp.2.2.2.2⟩
        · rw [hp.2.1, hds]; simp
        · rw [hp.2.2.1, his]; simp
      · rintro ⟨e, s⟩ he
        have hs := readPriorsBody_error H tok readDist st e s he
        subst hs
        exact hinv)
    n 0 { self := self, input := input, line := [], tokens := [] }
    ⟨rfl, [], rfl, fun b hb => absurd hb (List.not_mem_nil b), by simp, by simp⟩
  constructor
  · intro st' hst'
    have := key.1 st' hst'
    rwa [Nat.zero_add] at this
  · intro e s hes
    obtain ⟨k, _, hk, hhost, added, hlen, hrest⟩ := key.2 (e, s) hes
    exact ⟨hhost, added, by omega, hrest⟩

theorem forRange_error_split {τ ε : Type} (body : Nat → τ → Except ε τ) :
    ∀ (n i : Nat) (s : τ) (e : ε), forRange body i n s = Except.error e →
      ∃ (k : Nat) (st : τ), k < n ∧ forRange body i k s = Except.ok st ∧
        body (i + k) st = Except.error e := by
  intro n
  induction n with
  | zero => intro i s e h; cases h
  | succ n ih =>
    intro i s e h
    simp only [forRange] at h
    cases hbody : body i s with
    | error e0 =>
      rw [hbody] at h
      cases h
      exact ⟨0, s, by omega, rfl, hbody⟩
    | ok s1 =>
      rw [hbody] at h
      obtain ⟨k, st, hk, hpre, hfail⟩ := ih (i + 1) s1 e h
      refine ⟨k + 1, st, by omega, ?_, ?_⟩
      · simp only [forRange, hbody]
        exact hpre
      · rw [show i + (k + 1) = i + 1 + k by omega]
        exact hfail

theorem forRange_error_extend {τ ε : Type} (body : Nat → τ → Except ε τ) :
    ∀ (k i : Nat) (s st : τ) (e : ε), forRange body i k s = Except.ok st →
      body (i + k) st = Except.error e → forRange body i (k + 1) s = Except.error e := by
  intro k
  induction k with
  | zero =>
    intro i s st e hpre hfail
    cases hpre
    simp only [forRange]
    rw [Nat.add_zero] at hfail
    rw [hfail]
  | succ k ih =>
    intro i s st e hpre hfail
    simp only [forRange] at hpre
    cases hbody : body i s with
    | error e0 => rw [hbody] at hpre; cases hpre
    | ok s1 =>
      rw [hbody] at hpre
      have hnext := ih (i + 1) s1 st e hpre (by rw [show i + 1 + k = i + (k + 1) by omega]; exact hfail)
      rw [forRange, hbody]
      exact hnext

end ReadEffects


section ReadClaims

variable {σ R : Type}

/-- C15, refuted as stated: a stream of two blocks whose second `priorIndex` line has the key
`fooIndex`.  The call raises the file-format error at the second line, and the prior read from
the first block is attached to the host when the error is raised: the list of attached priors is
not the list before the call. -/
theorem readPriors_not_atomic :
    emptyObject.readPriorsFromStream (slotHost Int 3) tokenise quadRead
        (IStream.ofText "priorIndex=1\nquad\n1\nfooIndex=0\nquad\n1\n".toList) 2 =
      Except.error (Fault.fileFormatError,
        CRegularisable.mk emptyObject.host { dists := [quadDist 1], distIndex := [1] }) ∧
    ¬ (∀ s' : CRegularisable (Int → Int) Int,
      emptyObject.readPriorsFromStream (slotHost Int 3) tokenise quadRead
          (IStream.ofText "priorIndex=1\nquad\n1\nfooIndex=0\nquad\n1\n".toList) 2 =
        Except.error (Fault.fileFormatError, s') →
      s'.distArray.distIndex = emptyObject.distArray.distIndex) := by
  refine ⟨rfl, ?_⟩
  intro h
  have h1 := h (CRegularisable.mk emptyObject.host { dists := [quadDist 1], distIndex := [1] }) rfl
  revert h1
  decide

/-- C15, amended: when `readPriorsFromStream(in, numPriors)` raises an error, it does so in
iteration `k + 1` after `k < numPriors` iterations that succeeded, and the priors read by those
iterations stay attached: the host is left exactly as a successful `readPriorsFromStream(in, k)`
on the same stream leaves it, with `getNumPriors()` grown by `k`, the priors held before the call
in their positions and the `k` priors already read after them.  When the error is raised in the
first iteration, `k = 0` and the host is as before the call. -/
theorem readPriors_failure_effect (H : Host σ R)
    (tok : List (List Char) → List Char → List Char → List (List Char))
    (readDist : IStream → Except Fault (CDist R × IStream)) (self : CRegularisable σ R)
    (input : IStream) (numPriors : Int) (e : Fault) (self' : CRegularisable σ R)
    (h : self.readPriorsFromStream H tok readDist input numPriors = Except.error (e, self')) :
    ∃ (k : Nat) (inputK : IStream), (k : Int) < numPriors ∧
      self.readPriorsFromStream H tok readDist input (k : Int) = Except.ok (self', inputK) ∧
      self.readPriorsFromStream H tok readDist input ((k : Int) + 1) =
        Except.error (e, self') ∧
      self'.host = self.host ∧
      self'.getNumPriors = self.getNumPriors + (k : Int) ∧
      (∃ added : List (CDist R × Int), added.length = k ∧
        (∀ b ∈ added, 0 ≤ b.2 ∧ b.2 < H.getNumParams self.host) ∧
        self'.distArray.dists = self.distArray.dists ++ added.map Prod.fst ∧
        self'.distArray.distIndex = self.distArray.distIndex ++ added.map Prod.snd) ∧
      ((∃ e0, CRegularisable.readPriorsBody H tok readDist
          { self := self, input := input, line := [], tokens := [] } = Except.error e0) →
        k = 0 ∧ self' = self) := by
  unfold CRegularisable.readPriorsFromStream at h
  cases hloop : forRange (fun _ st => CRegularisable.readPriorsBody H tok readDist st) 0
      numPriors.toNat { self := self, input := input, line := [], tokens := [] } with
  | ok st => rw [hloop] at h; cases h
  | error e1 =>
    rw [hloop] at h
    cases h
    obtain ⟨k, st, hk, hpre, hfail⟩ := forRange_error_split _ _ _ _ _ hloop
    have hself : self' = st.self := readPriorsBody_error H tok readDist st e self' hfail
    obtain ⟨hhost, added, hlen, hrange, hds, his⟩ :=
      (readPriors_grows H tok readDist self input k).1 st hpre
    have hnext := forRange_error_extend _ k 0 _ st _ hpre hfail
    refine ⟨k, st.input, by omega, ?_, ?_, by rw [hself]; exact hhost, ?_,
      ⟨added, hlen, hrange, by rw [hself]; exact hds, by rw [hself]; exact his⟩, ?_⟩
    · unfold CRegularisable.readPriorsFromStream
      rw [Int.toNat_ofNat, hpre, hself]
    · unfold CRegularisable.readPriorsFromStream
      rw [show ((k : Int) + 1).toNat = k + 1 by omega, hnext]
    · rw [hself]
      simp [CRegularisable.getNumPriors, CParamPriors.getNumDists, hds, hlen]
    · rintro ⟨e0, hbody⟩
      have hk0 : k = 0 := by
        by_contra hne
        obtain ⟨k', rfl⟩ : ∃ k' : Nat, k = k' + 1 := ⟨k - 1, by omega⟩
        simp only [forRange, hbody] at hpre
        cases hpre
      subst hk0
      cases hpre
      exact ⟨rfl, hself⟩

/-- C15, exercised on the two-block stream whose second key is `fooIndex`: the error is raised
after one successful iteration, and the host is left as a read of one prior leaves it. -/
theorem readPriors_failure_effect_witness :
    emptyObject.readPriorsFromStream (slotHost Int 3) tokenise quadRead
        (IStream.ofText "priorIndex=1\nquad\n1\nfooIndex=0\nquad\n1\n".toList) 1 =
      Except.ok (CRegularisable.mk emptyObject.host { dists := [quadDist 1], distIndex := [1] },
        IStream.ofText "fooIndex=0\nquad\n1\n".toList) ∧
    ∃ (k : Nat) (inputK : IStream), (k : Int) < 2 ∧
      emptyObject.readPriorsFromStream (slotHost Int 3) tokenise quadRead
          (IStream.ofText "priorIndex=1\nquad\n1\nfooIndex=0\nquad\n1\n".toList) (k : Int) =
        Except.ok (CRegularisable.mk emptyObject.host
          { dists := [quadDist 1], distIndex := [1] }, inputK) ∧
      emptyObject.readPriorsFromStream (slotHost Int 3) tokenise quadRead
          (IStream.ofText "priorIndex=1\nquad\n1\nfooIndex=0\nquad\n1\n".toList)
          ((k : Int) + 1) =
        Except.error (Fault.fileFormatError,
          CRegularisable.mk emptyObject.host { dists := [quadDist 1], distIndex := [1] }) ∧
      (CRegularisable.mk emptyObject.host { dists := [quadDist 1], distIndex := [1] }).host =
        emptyObject.host ∧
      (CRegularisable.mk emptyObject.host
          { dists := [quadDist 1], distIndex := [1] }).getNumPriors =
        emptyObject.getNumPriors + (k : Int) ∧
      (∃ added : List (CDist Int × Int), added.length = k ∧
        (∀ b ∈ added, 0 ≤ b.2 ∧ b.2 < (slotHost Int 3).getNumParams emptyObject.host) ∧
        (CRegularisable.mk emptyObject.host
            { dists := [quadDist 1], distIndex := [1] }).distArray.dists =
          emptyObject.distArray.dists ++ added.map Prod.fst ∧
        (CRegularisable.mk emptyObject.host
            { dists := [quadDist 1], distIndex := [1] }).distArray.distIndex =
          emptyObject.distArray.distIndex ++ added.map Prod.snd) ∧
      ((∃ e0, CRegularisable.readPriorsBody (slotHost Int 3) tokenise quadRead
          { self := emptyObject
            input := IStream.ofText "priorIndex=1\nquad\n1\nfooIndex=0\nquad\n1\n".toList
            line := [], tokens := [] } = Except.error e0) →
        k = 0 ∧
          CRegularisable.mk emptyObject.host { dists := [quadDist 1], distIndex := [1] } =
            emptyObject) :=
  ⟨rfl,
    readPriors_failure_effect (slotHost Int 3) tokenise quadRead emptyObject
      (IStream.ofText "priorIndex=1\nquad\n1\nfooIndex=0\nquad\n1\n".toList) 2
      Fault.fileFormatError
      (CRegularisable.mk emptyObject.host { dists := [quadDist 1], distIndex := [1] }) rfl⟩

/-- C20: `readPriorsFromStream` appends.  Whatever the stream, a successful call on a host holding
`m` priors leaves `getNumPriors() = m + numPriors`, the first `m` bindings as they were and
`numPriors` in-range bindings after them; with `numPriors <= 0` the call returns at once, the
stream and the prior list being untouched; and on a well-formed stream, the blocks of the
in-range bindings `bs` written with a codec that round-trips, the call succeeds and the new
bindings are those of `bs` in stream order, index by index and distribution by distribution. -/
theorem readPriors_appends (H : Host σ R)
    (tok : List (List Char) → List Char → List Char → List (List Char))
    (readDist : IStream → Except Fault (CDist R × IStream)) (self : CRegularisable σ R)
    (input : IStream) (numPriors : Int) :
    (∀ (self' : CRegularisable σ R) (input' : IStream),
      self.readPriorsFromStream H tok readDist input numPriors = Except.ok (self', input') →
      self'.host = self.host ∧
      self'.getNumPriors = self.getNumPriors + (numPriors.toNat : Int) ∧
      ∃ added : List (CDist R × Int), added.length = numPriors.toNat ∧
        (∀ b ∈ added, 0 ≤ b.2 ∧ b.2 < H.getNumParams self.host) ∧
        self'.distArray.dists = self.distArray.dists ++ added.map Prod.fst ∧
        self'.distArray.distIndex = self.distArray.distIndex ++ added.map Prod.snd) ∧
    (numPriors ≤ 0 →
      self.readPriorsFromStream H tok readDist input numPriors = Except.ok (self, input)) ∧
    (∀ (writeDist : CDist R → List Char) (bs : List (CDist R × Int)),
      H.getNumParams self.host < 2 ^ 31 →
      (∀ n : Nat,
        tok [] ("priorIndex=".toList ++ showNat n) [ '='] = [priorIndexKey, showNat n]) →
      (∀ b ∈ bs, ∀ rest : List Char, ∃ (d' : CDist R) (s' : IStream),
        readDist (IStream.ofText (writeDist b.1 ++ rest)) = Except.ok (d', s') ∧
          b.1.sameAs d' ∧ s'.data = rest ∧ (rest ≠ [] → s'.good = true)) →
      (∀ b ∈ bs, 0 ≤ b.2 ∧ b.2 < H.getNumParams self.host) →
      input = IStream.ofText (priorsText writeDist bs) → numPriors = (bs.length : Int) →
      ∃ (self' : CRegularisable σ R) (input' : IStream),
        self.readPriorsFromStream H tok readDist input numPriors = Except.ok (self', input') ∧
        self'.distArray.distIndex = self.distArray.distIndex ++ bs.map Prod.snd ∧
        ∃ ds : List (CDist R), self'.distArray.dists = self.distArray.dists ++ ds ∧
          List.Forall₂ CDist.sameAs (bs.map Prod.fst) ds) := by
  refine ⟨?_, ?_, ?_⟩
  · intro self' input' h
    unfold CRegularisable.readPriorsFromStream at h
    cases hloop : forRange (fun _ st => CRegularisable.readPriorsBody H tok readDist st) 0
        numPriors.toNat { self := self, input := input, line := [], tokens := [] } with
    | error e1 => rw [hloop] at h; cases h
    | ok st =>
      rw [hloop] at h
      cases h
      obtain ⟨hhost, added, hlen, hrange, hds, his⟩ :=
        (readPriors_grows H tok readDist self input numPriors.toNat).1 st hloop
      refine ⟨hhost, ?_, added, hlen, hrange, hds, his⟩
      simp [CRegularisable.getNumPriors, CParamPriors.getNumDists, hds, hlen]
  · intro hn
    unfold CRegularisable.readPriorsFromStream
    rw [show numPriors.toNat = 0 by omega]
    rfl
  · intro writeDist bs hN htok hcodec hin hinput hnum
    obtain ⟨st', ds, hloop, _, hidx, hds, hall⟩ :=
      readPriors_loop H tok writeDist readDist (H.getNumParams self.host) hN htok bs hcodec hin
        { self := self, input := input, line := [], tokens := [] } 0 rfl rfl
        (by rw [hinput]; rfl) (fun _ => by rw [hinput]; rfl)
    refine ⟨st'.self, st'.input, ?_, hidx, ds, hds, hall⟩
    unfold CRegularisable.readPriorsFromStream
    rw [hnum, Int.toNat_ofNat, hloop]

/-- C20, exercised: two blocks read into `demoObject`, which already holds three priors; a call
with `numPriors = -1`; and the success of the call on the written blocks. -/
theorem readPriors_appends_witness :
    (demoObject.readPriorsFromStream (slotHost Int 3) tokenise quadRead
        (IStream.ofText "priorIndex=1\nquad\n1\npriorIndex=0\nquad\n2\n".toList) 2 =
      Except.ok (demoObjectRead, IStream.ofText [])) ∧
    (demoObjectRead.host = demoObject.host ∧
      demoObjectRead.getNumPriors = demoObject.getNumPriors + (((2 : Int).toNat : Nat) : Int) ∧
      ∃ added : List (CDist Int × Int), added.length = (2 : Int).toNat ∧
        (∀ b ∈ added, 0 ≤ b.2 ∧ b.2 < (slotHost Int 3).getNumParams demoObject.host) ∧
        demoObjectRead.distArray.dists = demoObject.distArray.dists ++ added.map Prod.fst ∧
        demoObjectRead.distArray.distIndex =
          demoObject.distArray.distIndex ++ added.map Prod.snd) ∧
    (demoObject.readPriorsFromStream (slotHost Int 3) tokenise quadRead
        (IStream.ofText "priorIndex=1\nquad\n1\npriorIndex=0\nquad\n2\n".toList) (-1) =
      Except.ok (demoObject,
        IStream.ofText "priorIndex=1\nquad\n1\npriorIndex=0\nquad\n2\n".toList)) ∧
    (∃ (self' : CRegularisable (Int → Int) Int) (input' : IStream),
      demoObject.readPriorsFromStream (slotHost Int 3) tokenise quadRead
          (IStream.ofText (priorsText quadWrite [(quadDist 1, 1), (quadDist 2, 0)]))
          (([(quadDist 1, 1), (quadDist 2, 0)] : List (CDist Int × Int)).length : Int) =
        Except.ok (self', input') ∧
      self'.distArray.distIndex = demoObject.distArray.distIndex ++
        ([(quadDist 1, 1), (quadDist 2, 0)] : List (CDist Int × Int)).map Prod.snd ∧
      ∃ ds : List (CDist Int), self'.distArray.dists = demoObject.distArray.dists ++ ds ∧
        List.Forall₂ CDist.sameAs
          (([(quadDist 1, 1), (quadDist 2, 0)] : List (CDist Int × Int)).map Prod.fst) ds) :=
  ⟨rfl,
    (readPriors_appends (slotHost Int 3) tokenise quadRead demoObject
      (IStream.ofText "priorIndex=1\nquad\n1\npriorIndex=0\nquad\n2\n".toList) 2).1
      demoObjectRead (IStream.ofText []) rfl,
    (readPriors_appends (slotHost Int 3) tokenise quadRead demoObject
      (IStream.ofText "priorIndex=1\nquad\n1\npriorIndex=0\nquad\n2\n".toList) (-1)).2.1
      (by decide),
    (readPriors_appends (slotHost Int 3) tokenise quadRead demoObject
      (IStream.ofText (priorsText quadWrite [(quadDist 1, 1), (quadDist 2, 0)]))
      (([(quadDist 1, 1), (quadDist 2, 0)] : List (CDist Int × Int)).length : Int)).2.2
      quadWrite [(quadDist 1, 1), (quadDist 2, 0)] (by decide) tokenise_priorIndex_line
      (by
        intro b hb rest
        simp only [List.mem_cons, List.mem_singleton, List.not_mem_nil, or_false] at hb
        rcases hb with rfl | rfl
        · exact quadCodec_roundTrip 1 (Or.inl rfl) rest
        · exact quadCodec_roundTrip 2 (Or.inr (Or.inl rfl)) rest)
      (by
        intro b hb
        simp only [List.mem_cons, List.mem_singleton, List.not_mem_nil, or_false] at hb
        rcases hb with rfl | rfl <;> exact ⟨by decide, by decide⟩)
      rfl rfl⟩

end ReadClaims


/-! ## Reachable objects -/

section Safety

variable {σ R : Type}

theorem readPriors_ok_grows (H : Host σ R)
    (tok : List (List Char) → List Char → List Char → List (List Char))
    (readDist : IStream → Except Fault (CDist R × IStream)) (s s' : CRegularisable σ R)
    (input input' : IStream) (n : Int)
    (h : s.readPriorsFromStream H tok readDist input n = Except.ok (s', input')) :
    s'.host = s.host ∧
    ∃ added : List (CDist R × Int),
      (∀ b ∈ added, 0 ≤ b.2 ∧ b.2 < H.getNumParams s.host) ∧
      s'.distArray.dists = s.distArray.dists ++ added.map Prod.fst ∧
      s'.distArray.distIndex = s.distArray.distIndex ++ added.map Prod.snd := by
  unfold CRegularisable.readPriorsFromStream at h
  cases hloop : forRange (fun _ st => CRegularisable.readPriorsBody H tok readDist st) 0
      n.toNat { self := s, input := input, line := [], tokens := [] } with
  | error e1 => rw [hloop] at h; cases h
  | ok st =>
    rw [hloop] at h
    cases h
    obtain ⟨hhost, added, _, hrest⟩ :=
      (readPriors_grows H tok readDist s input n.toNat).1 st hloop
    exact ⟨hhost, added, hrest⟩

theorem readPriors_error_grows (H : Host σ R)
    (tok : List (List Char) → List Char → List Char → List (List Char))
    (readDist : IStream → Except Fault (CDist R × IStream)) (s s' : CRegularisable σ R)
    (input : IStream) (n : Int) (e : Fault)
    (h : s.readPriorsFromStream H tok readDist input n = Except.error (e, s')) :
    s'.host = s.host ∧
    ∃ added : List (CDist R × Int),
      (∀ b ∈ added, 0 ≤ b.2 ∧ b.2 < H.getNumParams s.host) ∧
      s'.distArray.dists = s.distArray.dists ++ added.map Prod.fst ∧
      s'.distArray.distIndex = s.distArray.distIndex ++ added.map Prod.snd := by
  unfold CRegularisable.readPriorsFromStream at h
  cases hloop : forRange (fun _ st => CRegularisable.readPriorsBody H tok readDist st) 0
      n.toNat { self := s, input := input, line := [], tokens := [] } with
  | ok st => rw [hloop] at h; cases h
  | error e1 =>
    rw [hloop] at h
    cases h
    obtain ⟨hhost, added, _, hrest⟩ :=
      (readPriors_grows H tok readDist s input n.toNat).2 e s' hloop
    exact ⟨hhost, added, hrest⟩

theorem priorsAre_extend (s s' : CRegularisable σ R) (bs added : List (CDist R × Int))
    (h : s.priorsAre bs)
    (hd : s'.distArray.dists = s.distArray.dists ++ added.map Prod.fst)
    (hi : s'.distArray.distIndex = s.distArray.distIndex ++ added.map Prod.snd) :
    s'.priorsAre (bs ++ added) := by
  constructor
  · rw [hd, h.1, List.map_append]
  · rw [hi, h.2, List.map_append]

theorem reachable_inv (H : Host σ R)
    (tok : List (List Char) → List Char → List Char → List (List Char))
    (readDist : IStream → Except Fault (CDist R × IStream)) (N : Int)
    (s : CRegularisable σ R) (hr : Reachable H tok readDist N s) :
    H.getNumParams s.host = N ∧
    ∃ bs : List (CDist R × Int), s.priorsAre bs ∧ ∀ b ∈ bs, 0 ≤ b.2 ∧ b.2 < N := by
  induction hr with
  | fresh h hN => exact ⟨hN, [], ⟨rfl, rfl⟩, fun b hb => absurd hb (List.not_mem_nil b)⟩
  | addPrior s s' d i _ hadd ih =>
    obtain ⟨hN, bs, hbs, hin⟩ := ih
    have hp := priorsAre_addPrior H s s' bs d i hbs hadd
    refine ⟨by rw [hp.2.1]; exact hN, bs ++ [(d, i)], hp.1, ?_⟩
    intro b hb
    rcases List.mem_append.1 hb with hb | hb
    · exact hin b hb
    · simp only [List.mem_singleton] at hb
      subst hb
      rw [← hN]
      exact ⟨hp.2.2.1, hp.2.2.2⟩
  | clearPriors s _ ih =>
    exact ⟨ih.1, [], ⟨rfl, rfl⟩, fun b hb => absurd hb (List.not_mem_nil b)⟩
  | readPriors s s' input input' n _ hread ih =>
    obtain ⟨hN, bs, hbs, hin⟩ := ih
    obtain ⟨hhost, added, hrange, hd, hi⟩ :=
      readPriors_ok_grows H tok readDist s s' input input' n hread
    refine ⟨by rw [hhost]; exact hN, bs ++ added, priorsAre_extend s s' bs added hbs hd hi, ?_⟩
    intro b hb
    rcases List.mem_append.1 hb with hb | hb
    · exact hin b hb
    · rw [← hN]
      exact hrange b hb
  | readFailed s s' input n _ hread ih =>
    obtain ⟨hN, bs, hbs, hin⟩ := ih
    obtain ⟨hhost, added, hrange, hd, hi⟩ :=
      readPriors_error_grows H tok readDist s s' input n _ hread
    refine ⟨by rw [hhost]; exact hN, bs ++ added, priorsAre_extend s s' bs added hbs hd hi, ?_⟩
    intro b hb
    rcases List.mem_append.1 hb with hb | hb
    · exact hin b hb
    · rw [← hN]
      exact hrange b hb
  | hostStep s h _ hN ih =>
    obtain ⟨_, bs, hbs, hin⟩ := ih
    exact ⟨hN, bs, ⟨hbs.1, hbs.2⟩, hin⟩

/-- C19: for a host whose parameter count `N` is fixed, every object reachable from the empty
prior list by `addPrior`, `clearPriors` and `readPriorsFromStream` has an index list and a
distribution list of the same length and only stored parameter indices in `0 .. N-1`.
Consequently `priorLogProb` and, on a `1 x N` vector, `addPriorGrad` run to completion on it: no
access to `dists`, `distIndex` or the vector is out of range, and the indices handed to
`getParam`, which are the stored ones, are in range. -/
theorem reachable_safe [Add R] [Zero R] (H : Host σ R)
    (tok : List (List Char) → List Char → List Char → List (List Char))
    (readDist : IStream → Except Fault (CDist R × IStream)) (N : Int)
    (s : CRegularisable σ R) (hr : Reachable H tok readDist N s) :
    H.getNumParams s.host = N ∧
    s.distArray.dists.length = s.distArray.distIndex.length ∧
    (∀ idx ∈ s.distArray.distIndex, 0 ≤ idx ∧ idx < N) ∧
    (∃ L : R, s.priorLogProb H = Except.ok L) ∧
    (∀ g : CMatrix R, g.nrows = 1 → (g.ncols : Int) = N →
      ∃ g' : CMatrix R, s.addPriorGrad H g = Except.ok g') := by
  obtain ⟨hN, bs, hbs, hin⟩ := reachable_inv H tok readDist N s hr
  refine ⟨hN, priorsAre_length s bs hbs, ?_, ⟨_, priorLogProb_foldl H s bs hbs⟩, ?_⟩
  · intro idx hidx
    rw [hbs.2] at hidx
    obtain ⟨b, hb, rfl⟩ := List.mem_map.1 hidx
    exact hin b hb
  · intro g hrow hcol
    exact ⟨_, addPriorGrad_foldl H s bs hbs (fun b hb => by rw [hN]; exact hin b hb) g hrow
      (by rw [hN]; exact hcol)⟩

/-- C19, exercised: a three-parameter object after `addPrior(quadDist 1, 2)` and a read of one
block. -/
theorem reachable_safe_witness :
    Reachable (slotHost Int 3) tokenise quadRead 3
      (CRegularisable.mk emptyObject.host
        { dists := [quadDist 1, quadDist 2], distIndex := [2, 0] }) ∧
    (∃ L : Int, (CRegularisable.mk emptyObject.host
        { dists := [quadDist 1, quadDist 2], distIndex := [2, 0] }).priorLogProb
        (slotHost Int 3) = Except.ok L) ∧
    (∀ g : CMatrix Int, g.nrows = 1 → (g.ncols : Int) = 3 →
      ∃ g' : CMatrix Int, (CRegularisable.mk emptyObject.host
        { dists := [quadDist 1, quadDist 2], distIndex := [2, 0] }).addPriorGrad
        (slotHost Int 3) g = Except.ok g') :=
  ⟨Reachable.readPriors _ _ (IStream.ofText "priorIndex=0\nquad\n2\n".toList) (IStream.ofText []) 1
      (Reachable.addPrior _ _ (quadDist 1) 2 (Reachable.fresh emptyObject.host rfl) rfl) rfl,
    (reachable_safe (slotHost Int 3) tokenise quadRead 3 _
      (Reachable.readPriors _ _ (IStream.ofText "priorIndex=0\nquad\n2\n".toList)
        (IStream.ofText []) 1
        (Reachable.addPrior _ _ (quadDist 1) 2 (Reachable.fresh emptyObject.host rfl) rfl)
        rfl)).2.2.2⟩

end Safety


/-! ## Parameter names of a distribution -/

section Names

variable {R : Type}

theorem setParamName_ok (d d' : CDist R) (name : String) (i : Int)
    (h : d.setParamName name i = Except.ok d') :
    0 ≤ i ∧ i < d.nParams ∧ d'.nParams = d.nParams ∧
    d'.paramNames.length = max d.paramNames.length (i.toNat + 1) ∧
    ∀ j : Nat, d'.paramNames[j]? =
      if j = i.toNat then some name
      else if j < d.paramNames.length then d.paramNames[j]?
      else if j < i.toNat then some "no name" else none := by
  unfold CDist.setParamName at h
  split at h
  · cases h
  · split at h
    · cases h
    · rename_i h0 h1
      split at h
      · rename_i heq
        cases h
        refine ⟨by omega, by omega, rfl, ?_, ?_⟩
        · simp only [List.length_append, List.length_singleton]
          omega
        · intro j
          have hlen : d.paramNames.length = i.toNat := by omega
          simp only [List.getElem?_append, List.length_singleton]
          by_cases hj : j = i.toNat
          · subst hj
            simp [hlen]
          · rw [if_neg hj]
            by_cases hlt : j < d.paramNames.length
            · rw [if_pos hlt, if_pos hlt]
            · rw [if_neg hlt, if_neg hlt, if_neg (by omega)]
              rw [List.getElem?_eq_none (by simp; omega)]
      · rename_i hne
        cases h
        refine ⟨by omega, by omega, rfl, ?_, ?_⟩
        · simp only [List.length_set]
          split
          · simp only [List.length_append, List.length_replicate]
            omega
          · omega
        · intro j
          simp only [List.getElem?_set]
          by_cases hj : j = i.toNat
          · subst hj
            rw [if_pos rfl, if_pos rfl, if_pos]
            split
            · simp only [List.length_append, List.length_replicate]
              omega
            · omega
          · rw [if_neg (fun h => hj h.symm), if_neg hj]
            split
            · rename_i hlt
              rw [List.getElem?_append, List.getElem?_replicate]
              by_cases hjl : j < d.paramNames.length
              · rw [if_pos hjl, if_pos hjl]
              · rw [if_neg hjl, if_neg hjl]
                by_cases hji : j < i.toNat
                · rw [if_pos (by omega), if_pos hji]
                · rw [if_neg (by omega), if_neg hji]
            · rename_i hge
              by_cases hjl : j < d.paramNames.length
              · rw [if_pos hjl]
              · rw [if_neg hjl, if_neg (by omega), List.getElem?_eq_none (by omega)]

theorem getParamName_of_getElem (d : CDist R) (j : Int) (x : String) (h0 : 0 ≤ j)
    (h : d.paramNames[j.toNat]? = some x) : d.getParamName j = Except.ok x := by
  obtain ⟨hlt, _⟩ := List.getElem?_eq_some.1 h
  unfold CDist.getParamName
  rw [if_neg (by omega), if_neg (by omega)]
  simp [vecAt, h]

theorem getElem_of_getParamName (d : CDist R) (j : Int) (x : String)
    (h : d.getParamName j = Except.ok x) :
    0 ≤ j ∧ j.toNat < d.paramNames.length ∧ d.paramNames[j.toNat]? = some x := by
  unfold CDist.getParamName at h
  split at h
  · cases h
  · split at h
    · cases h
    · refine ⟨by omega, by omega, ?_⟩
      unfold vecAt at h
      split at h
      · rename_i a ha
        cases h
        exact ha
      · cases h

theorem setParamNames_inv (cs : List (String × Int)) :
    ∀ (d d' : CDist R) (done : List (String × Int)),
      (d.paramNames = [] ∨ (d.paramNames.length : Int) ≤ d.nParams) →
      (∀ j : Nat, j < d.paramNames.length → (∀ c ∈ done, c.2 ≠ (j : Int)) →
        d.paramNames[j]? = some "no name") →
      CDist.setParamNames d cs = Except.ok d' →
      d'.nParams = d.nParams ∧
      (d'.paramNames = [] ∨ (d'.paramNames.length : Int) ≤ d'.nParams) ∧
      ∀ j : Nat, j < d'.paramNames.length → (∀ c ∈ done ++ cs, c.2 ≠ (j : Int)) →
        d'.paramNames[j]? = some "no name" := by
  induction cs with
  | nil =>
    intro d d' done hlen hdef h
    cases h
    exact ⟨rfl, hlen, by simpa using hdef⟩
  | cons c cs ih =>
    intro d d' done hlen hdef h
    simp only [CDist.setParamNames] at h
    cases hstep : d.setParamName c.1 c.2 with
    | error e => rw [hstep] at h; cases h
    | ok d1 =>
      rw [hstep] at h
      obtain ⟨h0, h1, hn, hl, hget⟩ := setParamName_ok d d1 c.1 c.2 hstep
      have hlen1 : d1.paramNames = [] ∨ (d1.paramNames.length : Int) ≤ d1.nParams := by
        right
        rw [hl, hn]
        rcases hlen with hnil | hle
        · rw [hnil]
          simp only [List.length_nil]
          omega
        · omega
      have hdef1 : ∀ j : Nat, j < d1.paramNames.length →
          (∀ x ∈ done ++ [c], x.2 ≠ (j : Int)) → d1.paramNames[j]? = some "no name" := by
        intro j hj hnot
        have hjc : c.2 ≠ (j : Int) := hnot c (by simp)
        rw [hget j, if_neg (by omega)]
        by_cases hjl : j < d.paramNames.length
        · rw [if_pos hjl]
          exact hdef j hjl (fun x hx => hnot x (List.mem_append_left _ hx))
        · rw [if_neg hjl, if_pos (by omega)]
      obtain ⟨hn', hlen', hdef'⟩ := ih d1 d' (done ++ [c]) hlen1 hdef1 h
      refine ⟨by rw [hn', hn], hlen', ?_⟩
      intro j hj hnot
      exact hdef' j hj (by simpa using hnot)

/-- C17: take a distribution with parameter count `n` and no names stored, and any sequence of
successful `setParamName` calls.  A further `setParamName(name, i)` succeeds exactly when
`0 <= i < n` and fails on an assertion otherwise; after it `getParamName(i)` returns `name`,
every name that was returned at another index is still returned, every index below `i` that was
never set returns `"no name"`, and the stored list has at most `n` names. -/
theorem setParamName_spec (d0 d : CDist R) (h0 : d0.paramNames = [])
    (calls : List (String × Int)) (hcalls : CDist.setParamNames d0 calls = Except.ok d)
    (name : String) (i : Int) :
    ((∃ d', d.setParamName name i = Except.ok d') ↔ (0 ≤ i ∧ i < d0.nParams)) ∧
    (¬ (0 ≤ i ∧ i < d0.nParams) → d.setParamName name i = Except.error Fault.assertFailed) ∧
    (∀ d' : CDist R, d.setParamName name i = Except.ok d' →
      d'.getParamName i = Except.ok name ∧
      (∀ (j : Int) (x : String), j ≠ i → d.getParamName j = Except.ok x →
        d'.getParamName j = Except.ok x) ∧
      (∀ j : Int, 0 ≤ j → j < i → (∀ c ∈ calls, c.2 ≠ j) →
        d'.getParamName j = Except.ok "no name") ∧
      (d'.paramNames.length : Int) ≤ d0.nParams ∧ d'.nParams = d0.nParams) := by
  obtain ⟨hn, hlen, hdef⟩ := setParamNames_inv calls d0 d [] (Or.inl h0)
    (fun j hj => by rw [h0] at hj; simp at hj) hcalls
  simp only [List.nil_append] at hdef
  refine ⟨?_, ?_, ?_⟩
  · constructor
    · rintro ⟨d', hd'⟩
      obtain ⟨ha, hb, _⟩ := setParamName_ok d d' name i hd'
      exact ⟨ha, by rw [← hn]; exact hb⟩
    · rintro ⟨ha, hb⟩
      unfold CDist.setParamName
      rw [if_neg (by omega), if_neg (by rw [hn]; omega)]
      split
      · exact ⟨_, rfl⟩
      · exact ⟨_, rfl⟩
  · intro hout
    unfold CDist.setParamName
    by_cases ha : 0 ≤ i
    · rw [if_neg (by omega), if_pos (by rw [hn]; intro hb; exact hout ⟨ha, hb⟩)]
    · rw [if_pos (by omega)]
  · intro d' hd'
    obtain ⟨ha, hb, hn1, hl, hget⟩ := setParamName_ok d d' name i hd'
    refine ⟨?_, ?_, ?_, ?_, by rw [hn1, hn]⟩
    · apply getParamName_of_getElem d' i name ha
      rw [hget, if_pos rfl]
    · intro j x hji hx
      obtain ⟨hj0, hjl, hjx⟩ := getElem_of_getParamName d j x hx
      apply getParamName_of_getElem d' j x hj0
      rw [hget, if_neg (by omega), if_pos hjl]
      exact hjx
    · intro j hj0 hji hnot
      apply getParamName_of_getElem d' j _ hj0
      rw [hget, if_neg (by omega)]
      by_cases hjl : j.toNat < d.paramNames.length
      · rw [if_pos hjl]
        exact hdef j.toNat hjl (fun c hc => by
          have := hnot c hc
          omega)
      · rw [if_neg hjl, if_pos (by omega)]
    · rw [hl, ← hn]
      rcases hlen with hnil | hle
      · rw [hnil]
        simp only [List.length_nil]
        omega
      · omega

/-- C17, exercised: a three-parameter distribution on which index `2` is named first, then
index `0` is named. -/
theorem setParamName_spec_witness :
    CDist.setParamNames (CDist.setNumParams (quadDist 1) 3) [("c", 2)] =
      Except.ok { CDist.setNumParams (quadDist 1) 3 with
        paramNames := ["no name", "no name", "c"] } ∧
    ((∃ d', CDist.setParamName
        { CDist.setNumParams (quadDist 1) 3 with paramNames := ["no name", "no name", "c"] }
        "a" 0 = Except.ok d') ↔
      ((0 : Int) ≤ 0 ∧ (0 : Int) < (CDist.setNumParams (quadDist 1) 3).nParams)) :=
  ⟨rfl,
    (setParamName_spec (CDist.setNumParams (quadDist 1) 3)
      { CDist.setNumParams (quadDist 1) 3 with paramNames := ["no name", "no name", "c"] }
      rfl [("c", 2)] rfl "a" 0).1⟩

end Names


end CDistH
